import Mathlib

/-!
Verification of `datastore_mysql_stub.py` (MySQL-AppEngine-Connector).

The development shallowly embeds the parts of the stub that the verified
properties are about: the sortable path encoding (`__EncodeIndexPB`'s
`_encode_path`), the block ID allocator (`__AllocateIds`), the entity
store CRUD path (`_Dynamic_Put` / `_Dynamic_Get` / `_Dynamic_Delete`),
the query cursor (`QueryCursor`), the composite-index state machine
(`_Dynamic_UpdateIndex`), the transactional write buffer, and the query
planning guards (`__GetQueryCursor`).

Strings are embedded as `List Char` and compared byte-lexicographically,
the way Python 2 compares `str` values.  Loops are embedded as
fuel-indexed structural recursions so every definition is executable by
the kernel; each wrapper supplies fuel that provably suffices.
-/

namespace MySQLStub

/-- Byte-lexicographic strict order on character lists: the order Python 2
uses for `str` comparison (`a < b`). -/
def lexLtB : List Char → List Char → Bool
  | [], [] => false
  | [], _ :: _ => true
  | _ :: _, [] => false
  | a :: as, b :: bs => decide (a < b) || (decide (a = b) && lexLtB as bs)

theorem lexLtB_irrefl (a : List Char) : lexLtB a a = false := by
  induction a with
  | nil => rfl
  | cons c cs ih => simp [lexLtB, ih]

theorem lexLtB_asymm {a b : List Char} (h : lexLtB a b = true) :
    lexLtB b a = false := by
  induction a generalizing b with
  | nil =>
    cases b with
    | nil => cases h
    | cons d ds => rfl
  | cons c cs ih =>
    cases b with
    | nil => cases h
    | cons d ds =>
      simp only [lexLtB, Bool.or_eq_true, Bool.and_eq_true, decide_eq_true_eq] at h
      rcases h with h | ⟨he, h⟩
      · have h1 : ¬ d < c := not_lt_of_gt h
        have h2 : d ≠ c := ne_of_gt h
        simp [lexLtB, h1, h2]
      · subst he
        simp [lexLtB, lt_irrefl, ih h]

theorem lexLtB_trichotomy (a b : List Char) :
    lexLtB a b = true ∨ a = b ∨ lexLtB b a = true := by
  induction a generalizing b with
  | nil =>
    cases b with
    | nil => exact Or.inr (Or.inl rfl)
    | cons d ds => exact Or.inl rfl
  | cons c cs ih =>
    cases b with
    | nil => exact Or.inr (Or.inr rfl)
    | cons d ds =>
      rcases lt_trichotomy c d with h | h | h
      · exact Or.inl (by simp [lexLtB, h])
      · subst h
        rcases ih ds with h | h | h
        · exact Or.inl (by simp [lexLtB, h])
        · exact Or.inr (Or.inl (by rw [h]))
        · exact Or.inr (Or.inr (by simp [lexLtB, h]))
      · exact Or.inr (Or.inr (by simp [lexLtB, h]))

theorem lexLtB_ne {a b : List Char} (h : lexLtB a b = true) : a ≠ b := by
  intro he; subst he; rw [lexLtB_irrefl] at h; cases h

/-- Comparing two lists that share a prefix reduces to comparing the tails. -/
theorem lexLtB_append_left (w a b : List Char) :
    lexLtB (w ++ a) (w ++ b) = lexLtB a b := by
  induction w with
  | nil => rfl
  | cons c cs ih => simp [lexLtB, ih]

/-- For equally long lists, a strict comparison is decided before either list
ends, so appending arbitrary suffixes preserves it. -/
theorem lexLtB_append_of_length_eq {a b : List Char}
    (hlen : a.length = b.length) (h : lexLtB a b = true) (s t : List Char) :
    lexLtB (a ++ s) (b ++ t) = true := by
  induction a generalizing b with
  | nil =>
    cases b with
    | nil => cases h
    | cons d ds => simp at hlen
  | cons c cs ih =>
    cases b with
    | nil => simp at hlen
    | cons d ds =>
      simp only [List.length_cons, Nat.succ.injEq] at hlen
      simp only [lexLtB, Bool.or_eq_true, Bool.and_eq_true, decide_eq_true_eq] at h ⊢
      rcases h with h | ⟨he, h⟩
      · exact Or.inl h
      · exact Or.inr ⟨he, ih hlen h⟩

/-- `lowHead s` holds when `s` is empty or starts with a character no greater
than `':'`; the separators `'!'` and `':'` of the path encoding qualify. -/
def lowHead : List Char → Prop
  | [] => True
  | c :: _ => c ≤ ':'

/-- All characters of `s` are strictly greater than `':'`. -/
def goodStr (s : List Char) : Bool := s.all (fun c => decide (':' < c))

/-- Strict comparisons between strings whose right side has only high
characters survive appending a low-headed suffix on the left and anything on
the right. -/
theorem lexLtB_append_of_goodStr {a b : List Char}
    (hb : goodStr b = true) (h : lexLtB a b = true) {s : List Char}
    (hs : lowHead s) (t : List Char) :
    lexLtB (a ++ s) (b ++ t) = true := by
  induction a generalizing b with
  | nil =>
    cases b with
    | nil => cases h
    | cons d ds =>
      have hd : ':' < d := by
        have := List.all_eq_true.mp hb d (List.mem_cons_self d ds)
        exact of_decide_eq_true this
      cases s with
      | nil => simp [lexLtB]
      | cons c cs =>
        have : c < d := lt_of_le_of_lt hs hd
        simp [lexLtB, this]
  | cons c cs ih =>
    cases b with
    | nil => cases h
    | cons d ds =>
      simp only [lexLtB, Bool.or_eq_true, Bool.and_eq_true, decide_eq_true_eq] at h ⊢
      rcases h with h | ⟨he, h⟩
      · exact Or.inl h
      · refine Or.inr ⟨he, ?_⟩
        have hds : goodStr ds = true := by
          simp only [goodStr, List.all_cons, Bool.and_eq_true] at hb
          exact hb.2
        exact ih hds h

/-- Fuel-indexed big-endian decimal digits, the embedding of Python's
`str(id)` for a nonnegative integer.  The fuel only bounds the recursion
depth; `natDigits` supplies enough. -/
def natDigitsF : Nat → Nat → List Char
  | 0, _ => []
  | f + 1, n => if n < 10 then [Nat.digitChar n] else natDigitsF f (n / 10) ++ [Nat.digitChar (n % 10)]

/-- Big-endian decimal digits of `n`, `['0']` for zero: Python's `str(n)`. -/
def natDigits (n : Nat) : List Char := natDigitsF (n + 1) n

theorem natDigitsF_fuel {f n : Nat} (h : n < f) :
    natDigitsF f n = natDigitsF (n + 1) n := by
  induction f using Nat.strong_induction_on generalizing n with
  | _ f ih =>
    match f, h with
    | f + 1, h =>
      by_cases h10 : n < 10
      · simp [natDigitsF, h10]
      · have hdiv : n / 10 < n := Nat.div_lt_self (by omega) (by omega)
        have h1 : natDigitsF f (n / 10) = natDigitsF (n / 10 + 1) (n / 10) :=
          ih f (Nat.lt_succ_self f) (by omega)
        have h2 : natDigitsF n (n / 10) = natDigitsF (n / 10 + 1) (n / 10) :=
          ih n (by omega) hdiv
        simp [natDigitsF, h10, h1, h2]

/-- The defining recursion of `natDigits`, freed of fuel. -/
theorem natDigits_eq (n : Nat) :
    natDigits n = if n < 10 then [Nat.digitChar n]
      else natDigits (n / 10) ++ [Nat.digitChar (n % 10)] := by
  by_cases h10 : n < 10
  · simp [natDigits, natDigitsF, h10]
  · have hdiv : n / 10 < n := Nat.div_lt_self (by omega) (by omega)
    have : natDigitsF n (n / 10) = natDigitsF (n / 10 + 1) (n / 10) :=
      natDigitsF_fuel (by omega)
    simp [natDigits, natDigitsF, h10, this]

theorem natDigits_ne_nil (n : Nat) : natDigits n ≠ [] := by
  rw [natDigits_eq]
  by_cases h10 : n < 10 <;> simp [h10]

theorem natDigits_length_le {n k : Nat} (hk : 1 ≤ k) (h : n < 10 ^ k) :
    (natDigits n).length ≤ k := by
  induction n using Nat.strong_induction_on generalizing k with
  | _ n ih =>
    rw [natDigits_eq]
    by_cases h10 : n < 10
    · simp [h10]; omega
    · have hdiv : n / 10 < n := Nat.div_lt_self (by omega) (by omega)
      have hk2 : 2 ≤ k := by
        by_contra hc
        push_neg at hc
        have hk1 : k = 1 := by omega
        subst hk1
        simp at h
        omega
      have hpow : 10 ^ k = 10 ^ (k - 1) * 10 := by
        conv_lhs => rw [show k = (k - 1) + 1 by omega]
        rw [pow_succ]
      have hlt : n / 10 < 10 ^ (k - 1) := by
        rw [Nat.div_lt_iff_lt_mul (by omega)]
        omega
      have hrec := ih (n / 10) hdiv (k := k - 1) (by omega) hlt
      simp [h10]
      omega

theorem natDigits_length_pos (n : Nat) : 1 ≤ (natDigits n).length := by
  have := natDigits_ne_nil n
  cases hd : natDigits n with
  | nil => exact absurd hd this
  | cons c cs => simp [hd]

theorem lt_pow_length_natDigits (n : Nat) : n < 10 ^ (natDigits n).length := by
  induction n using Nat.strong_induction_on with
  | _ n ih =>
    rw [natDigits_eq]
    by_cases h10 : n < 10
    · simp [h10]
    · have hdiv : n / 10 < n := Nat.div_lt_self (by omega) (by omega)
      have h1 := ih (n / 10) hdiv
      simp only [h10, if_false, List.length_append, List.length_cons,
        List.length_nil, pow_succ]
      omega

theorem pow_pred_le_natDigits {n : Nat} (hn : 1 ≤ n) :
    10 ^ ((natDigits n).length - 1) ≤ n := by
  induction n using Nat.strong_induction_on with
  | _ n ih =>
    rw [natDigits_eq]
    by_cases h10 : n < 10
    · simp [h10]; omega
    · have hdiv : n / 10 < n := Nat.div_lt_self (by omega) (by omega)
      have hq : 1 ≤ n / 10 := by
        have h10le : 10 ≤ n := by omega
        omega
      have h1 := ih (n / 10) hdiv hq
      have hlen := natDigits_length_pos (n / 10)
      simp only [h10, if_false, List.length_append, List.length_cons,
        List.length_nil]
      have heq : (natDigits (n / 10)).length + (0 + 1) - 1 =
          ((natDigits (n / 10)).length - 1) + 1 := by omega
      rw [heq, pow_succ]
      omega

theorem digitChar_lt {a b : Nat} (ha : a < 10) (hb : b < 10) (h : a < b) :
    Nat.digitChar a < Nat.digitChar b := by
  interval_cases a <;> interval_cases b <;> first | exact absurd h (by omega) | decide

theorem natDigits_head_pos {n : Nat} (hn : 1 ≤ n) :
    ∃ c t, natDigits n = c :: t ∧ '0' < c ∧ c ≤ '9' := by
  induction n using Nat.strong_induction_on with
  | _ n ih =>
    rw [natDigits_eq]
    by_cases h10 : n < 10
    · refine ⟨Nat.digitChar n, [], by simp [h10], ?_, ?_⟩
      · interval_cases n <;> first | exact absurd hn (by omega) | decide
      · interval_cases n <;> decide
    · have hdiv : n / 10 < n := Nat.div_lt_self (by omega) (by omega)
      have hq : 1 ≤ n / 10 := by omega
      obtain ⟨c, t, heq, hc0, hc9⟩ := ih (n / 10) hdiv hq
      exact ⟨c, t ++ [Nat.digitChar (n % 10)], by simp [h10, heq], hc0, hc9⟩

theorem natDigits_length_mono {i j : Nat} (h : i ≤ j) :
    (natDigits i).length ≤ (natDigits j).length := by
  by_contra hc
  push_neg at hc
  rcases Nat.eq_zero_or_pos i with hi | hi
  · subst hi
    have : (natDigits 0).length = 1 := rfl
    have := natDigits_length_pos j
    omega
  · have h1 : 10 ^ ((natDigits i).length - 1) ≤ i := pow_pred_le_natDigits hi
    have h2 : j < 10 ^ (natDigits j).length := lt_pow_length_natDigits j
    have h3 : 10 ^ (natDigits j).length ≤ 10 ^ ((natDigits i).length - 1) :=
      Nat.pow_le_pow_right (by omega) (by omega)
    omega

/-- For equally long decimal representations, numeric order is
byte-lexicographic order. -/
theorem natDigits_lexLt {i j : Nat}
    (hlen : (natDigits i).length = (natDigits j).length) (h : i < j) :
    lexLtB (natDigits i) (natDigits j) = true := by
  induction j using Nat.strong_induction_on generalizing i with
  | _ j ih =>
    by_cases hj : j < 10
    · have hi : i < 10 := by omega
      rw [natDigits_eq i, natDigits_eq j, if_pos hi, if_pos hj]
      have := digitChar_lt hi hj h
      simp [lexLtB, this]
    · have hi : ¬ i < 10 := by
        intro hi
        have l1 : (natDigits i).length = 1 := by rw [natDigits_eq]; simp [hi]
        have l2 : 2 ≤ (natDigits j).length := by
          have : (10:Nat) ^ 1 ≤ j := by omega
          have := pow_pred_le_natDigits (n := j) (by omega)
          have hui := lt_pow_length_natDigits j
          by_contra hc
          push_neg at hc
          have : (natDigits j).length = 1 := by
            have := natDigits_length_pos j
            omega
          rw [this] at hui
          simp at hui
          omega
        omega
      have hdivj : j / 10 < j := Nat.div_lt_self (by omega) (by omega)
      have heqi := natDigits_eq i
      have heqj := natDigits_eq j
      simp only [hi, hj, if_false] at heqi heqj
      have hleni : (natDigits i).length = (natDigits (i / 10)).length + 1 := by
        rw [heqi]; simp
      have hlenj : (natDigits j).length = (natDigits (j / 10)).length + 1 := by
        rw [heqj]; simp
      have hlen' : (natDigits (i / 10)).length = (natDigits (j / 10)).length := by
        omega
      rw [heqi, heqj]
      rcases Nat.lt_or_ge (i / 10) (j / 10) with hq | hq
      · exact lexLtB_append_of_length_eq hlen' (ih (j / 10) hdivj hlen' hq) _ _
      · have hqe : i / 10 = j / 10 := by
          have : i / 10 ≤ j / 10 := Nat.div_le_div_right (le_of_lt h)
          omega
        rw [hqe, lexLtB_append_left]
        have hm : i % 10 < j % 10 := by omega
        have := digitChar_lt (Nat.mod_lt _ (by omega)) (Nat.mod_lt _ (by omega)) hm
        simp [lexLtB, this]

/-- Python's `str.zfill(10)`: left-pad with `'0'` to (at least) width 10. -/
def zfill10 (s : List Char) : List Char :=
  List.replicate (10 - s.length) '0' ++ s

/-- The encoding of a numeric path-element id: `str(e.id()).zfill(10)`. -/
def pad10 (n : Nat) : List Char := zfill10 (natDigits n)

theorem pad10_length {n : Nat} (h : n < 10 ^ 10) : (pad10 n).length = 10 := by
  have h1 : (natDigits n).length ≤ 10 := natDigits_length_le (by omega) h
  simp [pad10, zfill10]
  omega

/-- Below `10^10`, the zero-padded decimal encoding is strictly monotone for
byte-lexicographic comparison. -/
theorem pad10_lexLt {i j : Nat} (hj : j < 10 ^ 10) (h : i < j) :
    lexLtB (pad10 i) (pad10 j) = true := by
  have hlm : (natDigits i).length ≤ (natDigits j).length :=
    natDigits_length_mono (le_of_lt h)
  have hlj : (natDigits j).length ≤ 10 := natDigits_length_le (by omega) hj
  rcases Nat.eq_or_lt_of_le hlm with hle | hlt
  · unfold pad10 zfill10
    rw [hle, lexLtB_append_left]
    exact natDigits_lexLt hle h
  · unfold pad10 zfill10
    have hsplit : (10 - (natDigits i).length) =
        (10 - (natDigits j).length) + ((natDigits j).length - (natDigits i).length) := by
      omega
    rw [hsplit, List.replicate_add, List.append_assoc, lexLtB_append_left]
    have hj1 : 1 ≤ j := by
      by_contra hc
      push_neg at hc
      have hj0 : j = 0 := by omega
      omega
    obtain ⟨c, t, heq, hc0, _⟩ := natDigits_head_pos hj1
    have hk : 1 ≤ (natDigits j).length - (natDigits i).length := by omega
    have hrep : List.replicate ((natDigits j).length - (natDigits i).length) '0' =
        '0' :: List.replicate ((natDigits j).length - (natDigits i).length - 1) '0' := by
      conv_lhs => rw [show (natDigits j).length - (natDigits i).length =
        ((natDigits j).length - (natDigits i).length - 1) + 1 by omega]
      rw [List.replicate_succ]
    rw [hrep, heq]
    simp [lexLtB, hc0]

theorem pad10_inj {i j : Nat} (hi : i < 10 ^ 10) (hj : j < 10 ^ 10)
    (h : pad10 i = pad10 j) : i = j := by
  rcases lt_trichotomy i j with hc | hc | hc
  · exact absurd h (lexLtB_ne (pad10_lexLt hj hc))
  · exact hc
  · exact absurd h.symm (lexLtB_ne (pad10_lexLt hi hc))

/-- A key path element `(kind, id ∨ name)`.  `__ValidateKey` rejects elements
carrying both or neither of id and name, so exactly one is represented. -/
structure PathElem where
  kind : List Char
  ident : Sum Nat (List Char)
deriving DecidableEq, Repr

/-- `_encode_path`'s per-element id text: the name itself, or
`str(e.id()).zfill(10)`. -/
def encIdent : Sum Nat (List Char) → List Char
  | .inl i => pad10 i
  | .inr s => s

/-- One element of `_encode_path`: `'%s:%s' % (e.type(), id)`. -/
def encElem (e : PathElem) : List Char := e.kind ++ ':' :: encIdent e.ident

/-- Tail of `'!'.join(...)`: a `'!'` before every element after the first. -/
def encodeRest : List PathElem → List Char
  | [] => []
  | e :: p => '!' :: (encElem e ++ encodeRest p)

/-- `_encode_path(pb)`: the encoded elements joined by `'!'`. -/
def encodePath : List PathElem → List Char
  | [] => []
  | e :: p => encElem e ++ encodeRest p

/-- Domain order between element identifiers: numeric ids in numeric order and
before all names, names byte-wise. -/
def identLtB : Sum Nat (List Char) → Sum Nat (List Char) → Bool
  | .inl i, .inl j => decide (i < j)
  | .inl _, .inr _ => true
  | .inr _, .inl _ => false
  | .inr s, .inr t => lexLtB s t

/-- Domain order between path elements: by kind, then by identifier. -/
def elemLtB (e f : PathElem) : Bool :=
  lexLtB e.kind f.kind || (decide (e.kind = f.kind) && identLtB e.ident f.ident)

/-- Ancestor-prefix-then-sibling order on paths: the lexicographic order on
element lists, under which every ancestor precedes its descendants. -/
def pathLtB : List PathElem → List PathElem → Bool
  | [], [] => false
  | [], _ :: _ => true
  | _ :: _, [] => false
  | e :: p, f :: q => if e = f then pathLtB p q else elemLtB e f

/-- Identifier restriction under which the encoding is faithful: ids below
`10^10` (so `zfill(10)` never truncates the ordering) and nonempty names whose
characters all exceed `':'` (so neither separator, no digits). -/
def goodIdent : Sum Nat (List Char) → Bool
  | .inl i => decide (i < 10 ^ 10)
  | .inr s => goodStr s && decide (s ≠ [])

def goodElem (e : PathElem) : Bool := goodStr e.kind && goodIdent e.ident

def goodPath (p : List PathElem) : Bool := p.all goodElem

theorem natDigits_mem_digit {n : Nat} {c : Char} (h : c ∈ natDigits n) :
    '0' ≤ c ∧ c ≤ '9' := by
  induction n using Nat.strong_induction_on generalizing c with
  | _ n ih =>
    rw [natDigits_eq] at h
    by_cases h10 : n < 10
    · simp [h10] at h
      subst h
      interval_cases n <;> exact ⟨by decide, by decide⟩
    · have hdiv : n / 10 < n := Nat.div_lt_self (by omega) (by omega)
      simp [h10] at h
      rcases h with h | h
      · exact ih (n / 10) hdiv h
      · subst h
        have hm : n % 10 < 10 := Nat.mod_lt _ (by omega)
        interval_cases hm' : n % 10 <;> exact ⟨by decide, by decide⟩

theorem pad10_head {n : Nat} :
    ∃ c t, pad10 n = c :: t ∧ '0' ≤ c ∧ c ≤ '9' := by
  unfold pad10 zfill10
  cases hrep : 10 - (natDigits n).length with
  | zero =>
    cases hd : natDigits n with
    | nil => exact absurd hd (natDigits_ne_nil n)
    | cons c t =>
      refine ⟨c, t, by simp [hrep, hd], ?_⟩
      exact natDigits_mem_digit (hd ▸ List.mem_cons_self c t)
  | succ k =>
    exact ⟨'0', List.replicate k '0' ++ natDigits n,
      by simp [hrep, List.replicate_succ], by decide, by decide⟩

theorem goodStr_not_mem {s : List Char} (hs : goodStr s = true) {c : Char}
    (hc : c ≤ ':') : c ∉ s := by
  intro hmem
  have := List.all_eq_true.mp hs c hmem
  have := of_decide_eq_true this
  exact absurd (lt_of_le_of_lt hc this) (lt_irrefl c)

theorem bang_not_mem_encElem {e : PathElem} (he : goodElem e = true) :
    '!' ∉ encElem e := by
  simp only [goodElem, Bool.and_eq_true] at he
  intro hmem
  simp only [encElem, List.mem_append, List.mem_cons] at hmem
  rcases hmem with h | h | h
  · exact goodStr_not_mem he.1 (by decide) h
  · cases h
  · cases hi : e.ident with
    | inl i =>
      rw [hi] at h
      simp only [encIdent] at h
      have := pad10_head (n := i)
      obtain ⟨c, t, hpad, _, _⟩ := this
      rw [hpad] at h
      have hall : ∀ x ∈ pad10 i, '0' ≤ x ∧ x ≤ '9' := by
        intro x hx
        unfold pad10 zfill10 at hx
        rcases List.mem_append.mp hx with hx | hx
        · have := List.eq_of_mem_replicate hx
          subst this
          exact ⟨le_refl _, by decide⟩
        · exact natDigits_mem_digit hx
      have := hall '!' (hpad ▸ h)
      revert this
      decide
    | inr s =>
      rw [hi] at h
      simp only [encIdent] at h
      have hgood : goodIdent (Sum.inr s) = true := hi ▸ he.2
      simp only [goodIdent, Bool.and_eq_true] at hgood
      exact goodStr_not_mem hgood.1 (by decide) h

/-- Splitting at a separator character that occurs in neither left part is
unambiguous. -/
theorem append_sep_inj {c : Char} : ∀ {a b x y : List Char}, c ∉ a → c ∉ b →
    a ++ c :: x = b ++ c :: y → a = b ∧ x = y := by
  intro a
  induction a with
  | nil =>
    intro b x y _ hb h
    cases b with
    | nil => simpa using h
    | cons d bs =>
      simp only [List.nil_append, List.cons_append, List.cons.injEq] at h
      exact absurd (h.1 ▸ List.mem_cons_self d bs) hb
  | cons a1 as ih =>
    intro b x y ha hb h
    cases b with
    | nil =>
      simp only [List.cons_append, List.nil_append, List.cons.injEq] at h
      exact absurd (h.1 ▸ List.mem_cons_self a1 as) ha
    | cons b1 bs =>
      simp only [List.cons_append, List.cons.injEq] at h
      obtain ⟨h1, h2⟩ := h
      have := ih (fun hm => ha (List.mem_cons_of_mem _ hm))
        (fun hm => hb (List.mem_cons_of_mem _ hm)) h2
      exact ⟨by rw [h1, this.1], this.2⟩

/-- An element strictly below another (under the restriction) stays strictly
below after appending a separator-headed continuation on either side. -/
theorem encElem_lt_append {e f : PathElem} (he : goodElem e = true)
    (hf : goodElem f = true) (h : elemLtB e f = true) {s : List Char}
    (hs : lowHead s) (t : List Char) :
    lexLtB (encElem e ++ s) (encElem f ++ t) = true := by
  simp only [goodElem, Bool.and_eq_true] at he hf
  simp only [elemLtB, Bool.or_eq_true, Bool.and_eq_true, decide_eq_true_eq] at h
  rcases h with h | ⟨hk, h⟩
  · have := lexLtB_append_of_goodStr hf.1 h
      (s := ':' :: (encIdent e.ident ++ s)) (by exact le_refl ':')
      (':' :: (encIdent f.ident ++ t))
    simpa [encElem, List.append_assoc] using this
  · have hred : lexLtB (encElem e ++ s) (encElem f ++ t) =
        lexLtB (encIdent e.ident ++ s) (encIdent f.ident ++ t) := by
      have h1 : encElem e ++ s = (f.kind ++ [':']) ++ (encIdent e.ident ++ s) := by
        simp [encElem, hk]
      have h2 : encElem f ++ t = (f.kind ++ [':']) ++ (encIdent f.ident ++ t) := by
        simp [encElem]
      rw [h1, h2, lexLtB_append_left]
    rw [hred]
    cases hei : e.ident with
    | inl i =>
      cases hfi : f.ident with
      | inl j =>
        rw [hei, hfi] at h
        simp only [identLtB, decide_eq_true_eq] at h
        have hi : i < 10 ^ 10 := by
          have := he.2; rw [hei] at this
          simpa [goodIdent] using this
        have hj : j < 10 ^ 10 := by
          have := hf.2; rw [hfi] at this
          simpa [goodIdent] using this
        simp only [encIdent]
        exact lexLtB_append_of_length_eq
          (by rw [pad10_length hi, pad10_length hj]) (pad10_lexLt hj h) s t
      | inr nm =>
        have hi : i < 10 ^ 10 := by
          have := he.2; rw [hei] at this
          simpa [goodIdent] using this
        have hnm : goodStr nm = true ∧ nm ≠ [] := by
          have := hf.2; rw [hfi] at this
          simpa [goodIdent] using this
        obtain ⟨c, crest, hpad, _, hc9⟩ := pad10_head (n := i)
        cases nm with
        | nil => exact absurd rfl hnm.2
        | cons d ds =>
          have hd : ':' < d := by
            have := List.all_eq_true.mp hnm.1 d (List.mem_cons_self d ds)
            exact of_decide_eq_true this
          have hcd : c < d := lt_of_le_of_lt hc9 (lt_trans (by decide) hd)
          simp [encIdent, hpad, lexLtB, hcd]
    | inr snm =>
      cases hfi : f.ident with
      | inl j =>
        rw [hei, hfi] at h
        simp [identLtB] at h
      | inr tnm =>
        rw [hei, hfi] at h
        simp only [identLtB] at h
        have htn : goodStr tnm = true := by
          have := hf.2; rw [hfi] at this
          simp only [goodIdent, Bool.and_eq_true] at this
          exact this.1
        simpa [encIdent] using lexLtB_append_of_goodStr htn h hs t

/-- Under the restriction, the element encoding is injective. -/
theorem encElem_inj {e f : PathElem} (he : goodElem e = true)
    (hf : goodElem f = true) (h : encElem e = encElem f) : e = f := by
  simp only [goodElem, Bool.and_eq_true] at he hf
  have hcolon_e : ':' ∉ e.kind := goodStr_not_mem he.1 (le_refl _)
  have hcolon_f : ':' ∉ f.kind := goodStr_not_mem hf.1 (le_refl _)
  obtain ⟨hkind, hid⟩ := append_sep_inj hcolon_e hcolon_f h
  have hident : e.ident = f.ident := by
    cases hei : e.ident with
    | inl i =>
      cases hfi : f.ident with
      | inl j =>
        rw [hei, hfi] at hid
        simp only [encIdent] at hid
        have hi : i < 10 ^ 10 := by
          have := he.2; rw [hei] at this; simpa [goodIdent] using this
        have hj : j < 10 ^ 10 := by
          have := hf.2; rw [hfi] at this; simpa [goodIdent] using this
        rw [pad10_inj hi hj hid]
      | inr nm =>
        rw [hei, hfi] at hid
        simp only [encIdent] at hid
        have hnm : goodStr nm = true := by
          have := hf.2; rw [hfi] at this
          simp only [goodIdent, Bool.and_eq_true] at this
          exact this.1
        obtain ⟨c, crest, hpad, _, hc9⟩ := pad10_head (n := i)
        rw [hpad] at hid
        have hmem : c ∈ nm := hid ▸ List.mem_cons_self c crest
        have hgt : ':' < c := of_decide_eq_true (List.all_eq_true.mp hnm c hmem)
        have hlt : c < c :=
          lt_of_le_of_lt hc9 (lt_trans (show ('9':Char) < ':' by decide) hgt)
        exact absurd hlt (lt_irrefl c)
    | inr snm =>
      cases hfi : f.ident with
      | inl j =>
        rw [hei, hfi] at hid
        simp only [encIdent] at hid
        have hsm : goodStr snm = true := by
          have := he.2; rw [hei] at this
          simp only [goodIdent, Bool.and_eq_true] at this
          exact this.1
        obtain ⟨c, crest, hpad, _, hc9⟩ := pad10_head (n := j)
        rw [hpad] at hid
        have hmem : c ∈ snm := hid.symm ▸ List.mem_cons_self c crest
        have hgt : ':' < c := of_decide_eq_true (List.all_eq_true.mp hsm c hmem)
        have hlt : c < c :=
          lt_of_le_of_lt hc9 (lt_trans (show ('9':Char) < ':' by decide) hgt)
        exact absurd hlt (lt_irrefl c)
      | inr tnm => rw [hei, hfi] at hid; simpa [encIdent] using hid
  cases e; cases f
  simp_all

theorem identLtB_trichotomy {x y : Sum Nat (List Char)} (h : x ≠ y) :
    identLtB x y = true ∨ identLtB y x = true := by
  cases x with
  | inl i =>
    cases y with
    | inl j =>
      have : i ≠ j := fun he => h (by rw [he])
      rcases Nat.lt_or_ge i j with hc | hc
      · exact Or.inl (by simp [identLtB, hc])
      · exact Or.inr (by simp [identLtB]; omega)
    | inr t => exact Or.inl rfl
  | inr s =>
    cases y with
    | inl j => exact Or.inr rfl
    | inr t =>
      have hne : s ≠ t := fun he => h (by rw [he])
      rcases lexLtB_trichotomy s t with hc | hc | hc
      · exact Or.inl (by simpa [identLtB] using hc)
      · exact absurd hc hne
      · exact Or.inr (by simpa [identLtB] using hc)

theorem elemLtB_trichotomy {e f : PathElem} (h : e ≠ f) :
    elemLtB e f = true ∨ elemLtB f e = true := by
  rcases lexLtB_trichotomy e.kind f.kind with hc | hc | hc
  · exact Or.inl (by simp [elemLtB, hc])
  · have hident : e.ident ≠ f.ident := by
      intro he
      apply h
      cases e; cases f
      simp_all
    rcases identLtB_trichotomy hident with hi | hi
    · exact Or.inl (by simp [elemLtB, hc, hi])
    · exact Or.inr (by simp [elemLtB, hc.symm, hi])
  · exact Or.inr (by simp [elemLtB, hc])

theorem pathLtB_trichotomy : ∀ {p q : List PathElem}, p ≠ q →
    pathLtB p q = true ∨ pathLtB q p = true := by
  intro p
  induction p with
  | nil =>
    intro q h
    cases q with
    | nil => exact absurd rfl h
    | cons f fs => exact Or.inl rfl
  | cons e p ih =>
    intro q h
    cases q with
    | nil => exact Or.inr rfl
    | cons f fs =>
      by_cases hef : e = f
      · subst hef
        have : p ≠ fs := by intro hc; exact h (by rw [hc])
        rcases ih this with hc | hc
        · exact Or.inl (by simp [pathLtB, hc])
        · exact Or.inr (by simp [pathLtB, hc])
      · rcases elemLtB_trichotomy hef with hc | hc
        · exact Or.inl (by simp [pathLtB, hef, hc])
        · exact Or.inr (by simp [pathLtB, Ne.symm hef, hc])

theorem lowHead_encodeRest (p : List PathElem) : lowHead (encodeRest p) := by
  cases p with
  | nil => trivial
  | cons e q => exact (by decide : ('!' : Char) ≤ ':')

theorem encodePath_cons_ne_nil (e : PathElem) (p : List PathElem) :
    encodePath (e :: p) ≠ [] := by
  simp [encodePath, encElem]

/-- Forward monotonicity: domain order on restricted paths implies
byte-lexicographic order on their encodings. -/
theorem pathLtB_imp_lexLtB : ∀ {p q : List PathElem}, goodPath p = true →
    goodPath q = true → pathLtB p q = true →
    lexLtB (encodePath p) (encodePath q) = true := by
  intro p
  induction p with
  | nil =>
    intro q _ _ h
    cases q with
    | nil => cases h
    | cons f fs =>
      cases hq : encodePath (f :: fs) with
      | nil => exact absurd hq (encodePath_cons_ne_nil f fs)
      | cons c cs => rfl
  | cons e p ih =>
    intro q hgp hgq h
    cases q with
    | nil => cases h
    | cons f fs =>
      simp only [goodPath, List.all_cons, Bool.and_eq_true] at hgp hgq
      by_cases hef : e = f
      · subst hef
        simp only [pathLtB, eq_self_iff_true, if_true] at h
        simp only [encodePath, lexLtB_append_left]
        cases p with
        | nil =>
          cases fs with
          | nil => cases h
          | cons y q2 => rfl
        | cons x p2 =>
          cases fs with
          | nil => cases h
          | cons y q2 =>
            simp only [encodeRest]
            have := ih (q := y :: q2) hgp.2 hgq.2 h
            simpa [lexLtB, encodePath] using this
      · simp only [pathLtB, if_neg hef] at h
        simp only [encodePath]
        exact encElem_lt_append hgp.1 hgq.1 h (lowHead_encodeRest p) _

/-- A `'!'`-headed-or-empty continuation after a separator-free block splits
unambiguously. -/
theorem bang_split : ∀ {a b x y : List Char}, '!' ∉ a → '!' ∉ b →
    (x = [] ∨ ∃ x', x = '!' :: x') → (y = [] ∨ ∃ y', y = '!' :: y') →
    a ++ x = b ++ y → a = b ∧ x = y := by
  intro a
  induction a with
  | nil =>
    intro b x y _ hb hx hy h
    cases b with
    | nil => simpa using h
    | cons d bs =>
      simp only [List.nil_append, List.cons_append] at h
      rcases hx with hx | ⟨x', hx⟩
      · rw [hx] at h; cases h
      · rw [hx] at h
        have hd : d = '!' := ((List.cons_eq_cons.mp h).1).symm
        exact absurd (hd ▸ List.mem_cons_self d bs) hb
  | cons c as ih =>
    intro b x y ha hb hx hy h
    cases b with
    | nil =>
      simp only [List.cons_append, List.nil_append] at h
      rcases hy with hy | ⟨y', hy⟩
      · rw [hy] at h; cases h
      · rw [hy] at h
        have hc : c = '!' := (List.cons_eq_cons.mp h).1
        exact absurd (hc ▸ List.mem_cons_self c as) ha
    | cons d bs =>
      simp only [List.cons_append, List.cons.injEq] at h
      obtain ⟨h1, h2⟩ := h
      have := ih (fun hm => ha (List.mem_cons_of_mem _ hm))
        (fun hm => hb (List.mem_cons_of_mem _ hm)) hx hy h2
      exact ⟨by rw [h1, this.1], this.2⟩

theorem encodeRest_shape (p : List PathElem) :
    encodeRest p = [] ∨ ∃ t, encodeRest p = '!' :: t := by
  cases p with
  | nil => exact Or.inl rfl
  | cons e q => exact Or.inr ⟨_, rfl⟩

/-- Under the restriction, the path encoding is collision-free. -/
theorem encodePath_inj : ∀ {p q : List PathElem}, goodPath p = true →
    goodPath q = true → encodePath p = encodePath q → p = q := by
  intro p
  induction p with
  | nil =>
    intro q _ _ h
    cases q with
    | nil => rfl
    | cons f fs => exact absurd h.symm (encodePath_cons_ne_nil f fs)
  | cons e p ih =>
    intro q hgp hgq h
    cases q with
    | nil => exact absurd h (encodePath_cons_ne_nil e p)
    | cons f fs =>
      simp only [goodPath, List.all_cons, Bool.and_eq_true] at hgp hgq
      simp only [encodePath] at h
      obtain ⟨helem, hrest⟩ := bang_split (bang_not_mem_encElem hgp.1)
        (bang_not_mem_encElem hgq.1) (encodeRest_shape p) (encodeRest_shape fs) h
      have hef : e = f := encElem_inj hgp.1 hgq.1 helem
      have htl : p = fs := by
        cases p with
        | nil =>
          cases fs with
          | nil => rfl
          | cons y q2 => simp [encodeRest] at hrest
        | cons x p2 =>
          cases fs with
          | nil => simp [encodeRest] at hrest
          | cons y q2 =>
            simp only [encodeRest, List.cons.injEq] at hrest
            exact ih (q := y :: q2) hgp.2 hgq.2 (by simpa [encodePath] using hrest)
      rw [hef, htl]

/-- `entity_pb.Reference`: app id, namespace and key path. -/
structure Ref where
  app : List Char
  ns : List Char
  path : List PathElem
deriving DecidableEq, Repr

/-- One indexed entity property.  Its value is the output of the external
`sortable_pb_encoder` (`__EncodeIndexPB` on a `PropertyValue`), carried here
as opaque encoded bytes. -/
structure EProp where
  name : List Char
  value : List Char
deriving DecidableEq, Repr

/-- `entity_pb.EntityProto`: key, entity group and indexed properties.
`Encode`/`ParseFromString` round-trip in the protobuf library, so
serialization is the identity at this level of the embedding. -/
structure Entity where
  key : Ref
  group : List PathElem
  props : List EProp
deriving DecidableEq, Repr

/-- `formatTableName`: `re.sub("[^\w\d_]", "", tableName)`. -/
def isWordChar (c : Char) : Bool := c.isAlphanum || c = '_'

def formatTableName (t : List Char) : List Char := t.filter isWordChar

/-- Table-name prefix of `__GetTablePrefix`: `'%s_%s' % (app, ns)` cleaned by
`formatTableName` (the intermediate `'"' → '""'` doubling is erased by the
filter anyway). -/
def tablePfx (app ns : List Char) : List Char := formatTableName (app ++ '_' :: ns)

/-- Per-prefix ID allocator state: the cached `__id_map[prefix]` pair
`(next_id, block_size)` together with the durable `IdSeq.next_id` value for
the same prefix. -/
structure AllocState where
  next : Nat
  rem : Nat
  durable : Nat
deriving DecidableEq, Repr

/-- `__AllocateIds(conn, prefix, size)` on one prefix's state: when
`size >= block_size` the durable counter is advanced by `max(1000, size)` and
the cache refilled from the pre-increment counter value; then `size` ids are
served from the cache. -/
def allocStep (σ : AllocState) (size : Nat) : Nat × AllocState :=
  if σ.rem ≤ size then
    let b := max 1000 size
    let durable := σ.durable + b
    let next := durable - b
    (next, ⟨next + size, b - size, durable⟩)
  else
    (σ.next, ⟨σ.next + size, σ.rem - size, σ.durable⟩)

/-- Results of a call sequence to the allocator: `(starting_id, count)` per
call, threading the state. -/
def allocRuns (σ : AllocState) : List Nat → List (Nat × Nat)
  | [] => []
  | n :: rest => ((allocStep σ n).1, n) :: allocRuns (allocStep σ n).2 rest

/-- A row of a `%(prefix)s_Entities` table:
`(__path__ PRIMARY KEY, kind, entity)`. -/
structure EntityRow where
  pfx : List Char
  path : List Char
  kind : List Char
  ent : Entity
deriving DecidableEq, Repr

/-- A row of a `%(prefix)s_EntitiesByProperty` table.  Its `hashed_index`
primary key, `md5(kind + name + value + __path__)`, is modelled by the tuple
itself (the spec's collision-free fingerprint). -/
structure IndexRow where
  pfx : List Char
  kind : List Char
  name : List Char
  value : List Char
  path : List Char
deriving DecidableEq, Repr

/-- The stub's persistent state: configuration, the `Namespaces` and `IdSeq`
tables, the in-memory id cache, and the per-namespace entity/index tables
(each row tagged with its table prefix). -/
structure Store where
  appId : List Char
  trusted : Bool
  namespaces : List (List Char × List Char)
  idSeq : List (List Char × Nat)
  idMap : List (List Char × (Nat × Nat))
  primary : List EntityRow
  index : List IndexRow
deriving DecidableEq, Repr

/-- `__ValidateAppId`. -/
def validApp (s : Store) (app : List Char) : Bool :=
  s.trusted || decide (app = s.appId)

/-- `__GetTablePrefix`: lazily provisions the namespace on first touch
(`__ConfigureNamespace`), seeding the durable `IdSeq` row at 1 via
`INSERT IGNORE`. -/
def getTablePfx (s : Store) (app ns : List Char) : List Char × Store :=
  let p := tablePfx app ns
  if (app, ns) ∈ s.namespaces then (p, s)
  else
    let seq := if s.idSeq.any (fun kv => decide (kv.1 = p)) then s.idSeq
      else (p, 1) :: s.idSeq
    (p, { s with namespaces := (app, ns) :: s.namespaces, idSeq := seq })

/-- `__AllocateIds` on the stub state; `none` is the `assert rowcount == 1`
failure when the durable `IdSeq` row for the prefix is missing. -/
def allocateIds (s : Store) (p : List Char) (size : Nat) :
    Option (Nat × Store) :=
  match s.idSeq.lookup p with
  | none => none
  | some durable =>
    let cache := (s.idMap.lookup p).getD (0, 0)
    let r := allocStep ⟨cache.1, cache.2, durable⟩ size
    some (r.1, { s with
      idSeq := s.idSeq.map (fun kv => if kv.1 = p then (p, r.2.durable) else kv),
      idMap := (p, (r.2.next, r.2.rem)) ::
        s.idMap.filter (fun kv => decide (kv.1 ≠ p)) })

/-- `__GetEntityKind`: kind of the key's last path element. -/
def entityKind (e : Entity) : List Char :=
  match e.key.path.getLast? with
  | some el => el.kind
  | none => []

/-- `last_path.id() == 0 and not last_path.has_name()`: the key still needs
an allocated id. -/
def pendingId (e : Entity) : Bool :=
  match e.key.path.getLast? with
  | some el => decide (el.ident = Sum.inl 0)
  | none => false

/-- `last_path.set_id(id_)`. -/
def setLastId : List PathElem → Nat → List PathElem
  | [], _ => []
  | [e], i => [{ e with ident := Sum.inl i }]
  | e :: f :: rest, i => e :: setLastId (f :: rest) i

/-- Order used by `sorted((x.app(), x.name_space(), x) for x in keys)` as far
as the grouping can observe it: the `(app, name_space)` component.  Ties are
broken by Python's comparison of the `Reference` objects, which cannot change
which contiguous group comes first. -/
def refGroupLe (x y : Ref) : Bool :=
  lexLtB x.app y.app ||
    (decide (x.app = y.app) && (lexLtB x.ns y.ns || decide (x.ns = y.ns)))

def insertSortedRef (x : Ref) : List Ref → List Ref
  | [] => [x]
  | y :: ys => if refGroupLe x y then x :: y :: ys else y :: insertSortedRef x ys

def sortRefs : List Ref → List Ref
  | [] => []
  | x :: xs => insertSortedRef x (sortRefs xs)

/-- The first `(app, name_space)` group produced by
`itertools.groupby(sorted(keys), ...)`. -/
def firstGroup (keys : List Ref) : List Ref :=
  match sortRefs keys with
  | [] => []
  | k :: ks => k :: ks.takeWhile (fun x => decide (x.app = k.app ∧ x.ns = k.ns))

/-- `__DeleteRows` against an `Entities` table: `DELETE ... WHERE __path__ IN
(paths)` restricted to the table named by the prefix. -/
def deleteRowsPrimary (rows : List EntityRow) (p : List Char)
    (paths : List (List Char)) : List EntityRow :=
  rows.filter (fun r => decide (¬ (r.pfx = p ∧ r.path ∈ paths)))

/-- `__DeleteRows` against an `EntitiesByProperty` table. -/
def deleteRowsIndex (rows : List IndexRow) (p : List Char)
    (paths : List (List Char)) : List IndexRow :=
  rows.filter (fun r => decide (¬ (r.pfx = p ∧ r.path ∈ paths)))

/-- `__DeleteEntityRows` on the primary table.  The `return` statement inside
the `groupby` loop makes the function process only the first
`(app, name_space)` group of the sorted keys. -/
def deleteEntityRowsPrimary (s : Store) (keys : List Ref) : Store :=
  match firstGroup keys with
  | [] => s
  | k :: ks =>
    let paths := (k :: ks).map (fun x => encodePath x.path)
    let r := getTablePfx s k.app k.ns
    { r.2 with primary := deleteRowsPrimary r.2.primary r.1 paths }

/-- `__DeleteEntityRows` on the `EntitiesByProperty` table
(`__DeleteIndexEntries`), with the same first-group-only behaviour. -/
def deleteEntityRowsIndex (s : Store) (keys : List Ref) : Store :=
  match firstGroup keys with
  | [] => s
  | k :: ks =>
    let paths := (k :: ks).map (fun x => encodePath x.path)
    let r := getTablePfx s k.app k.ns
    { r.2 with index := deleteRowsIndex r.2.index r.1 paths }

/-- `__DeleteEntities`: index rows first, then primary rows. -/
def deleteEntities (s : Store) (keys : List Ref) : Store :=
  deleteEntityRowsPrimary (deleteEntityRowsIndex s keys) keys

/-- `_Dynamic_Delete` without a transaction: validate every key's app, then
delete; `none` is the BadRequest exit. -/
def dynamicDelete (s : Store) (keys : List Ref) : Option Store :=
  if keys.all (fun k => validApp s k.app) then some (deleteEntities s keys)
  else none

/-- `REPLACE INTO %s_Entities`: drop any row with the same primary key, then
insert. -/
def replaceRow (rows : List EntityRow) (r : EntityRow) : List EntityRow :=
  r :: rows.filter (fun x => decide (¬ (x.pfx = r.pfx ∧ x.path = r.path)))

/-- The index rows generated for one entity by `__InsertIndexEntries`'s
`RowGenerator`: one per indexed property occurrence. -/
def indexRowsOf (p : List Char) (e : Entity) : List IndexRow :=
  e.props.map (fun pr =>
    ⟨p, entityKind e, pr.name, pr.value, encodePath e.key.path⟩)

/-- `INSERT IGNORE INTO %s_EntitiesByProperty`: keep the existing row on a
`hashed_index` collision. -/
def insertIndexRows (rows : List IndexRow) : List IndexRow → List IndexRow
  | [] => rows
  | r :: rest => insertIndexRows (if r ∈ rows then rows else rows ++ [r]) rest

/-- `__PutEntities` for one entity: delete stale index rows, `REPLACE` the
primary row, insert fresh index rows. -/
def putEntitiesOne (s : Store) (e : Entity) : Store :=
  let s1 := deleteEntityRowsIndex s [e.key]
  let r := getTablePfx s1 e.key.app e.key.ns
  let p := r.1
  let s2 := r.2
  let row : EntityRow := ⟨p, encodePath e.key.path, entityKind e, e⟩
  let s3 := { s2 with primary := replaceRow s2.primary row }
  let r2 := getTablePfx s3 e.key.app e.key.ns
  let s4 := r2.2
  { s4 with index := insertIndexRows s4.index (indexRowsOf r2.1 e) }

/-- `last_path.set_id(id_)` followed by
`entity.mutable_entity_group().add_element().CopyFrom(root)` where `root` is
the (just-updated) first path element. -/
def completeEnt (e : Entity) (i : Nat) : Entity :=
  { e with
    key := { e.key with path := setLastId e.key.path i },
    group := (setLastId e.key.path i).take 1 }

/-- `_Dynamic_Put` for a single-entity, non-transactional request (the batch
path runs the same per-entity logic grouped by prefix).  Returns the stored
entity — Python mutates the request entity in place, and the response key
list carries its key.  `none` models the BadRequest/AssertionError exits.
The user-value gaiaid normalization touches only the opaque encoded value
bytes and is part of the external encoder boundary. -/
def dynamicPutOne (s : Store) (e : Entity) : Option (Store × Entity) :=
  if validApp s e.key.app = false then none
  else if e.key.path = [] then none
  else if pendingId e then
    if e.group ≠ [] then none
    else
      match allocateIds (getTablePfx s e.key.app e.key.ns).2
          (getTablePfx s e.key.app e.key.ns).1 1 with
      | none => none
      | some (i, s2) => some (putEntitiesOne s2 (completeEnt e i), completeEnt e i)
  else
    if e.group = [] then none
    else some (putEntitiesOne s e, e)

/-- `_Dynamic_Get` for one key: `SELECT entity ... WHERE __path__ = %s`; an
absent row leaves the response group entity-less (`none`). -/
def dynamicGetOne (s : Store) (k : Ref) : Option (Store × Option Entity) :=
  if validApp s k.app = false then none
  else
    let r := getTablePfx s k.app k.ns
    some (r.2, (r.2.primary.find?
      (fun row => decide (row.pfx = r.1 ∧ row.path = encodePath k.path))).map
      (fun row => row.ent))

/-- One backend row of a planned query's result stream: `(__path__, entity,
order columns)`, the order-column values already concatenated into the
position string `''.join(str(x) for x in row[2:])`. -/
structure Row where
  path : List Char
  pos : List Char
  ent : Entity
deriving DecidableEq, Repr

/-- `QueryCursor` state: the remaining backend rows (`__cursor`; `live =
false` once it is set to `None`), the `__seen` dedup set, the
`__next_result` buffer, `__position`, `self.limit = limit + offset`, the
primary sort direction and the end compiled cursor's start key. -/
structure Cursor where
  rows : List Row
  live : Bool
  seen : List (List Char)
  nextRes : Option (List Char × Entity)
  pos : List Char
  limit : Option Nat
  asc : Bool
  endKey : Option (List Char)
deriving DecidableEq, Repr

/-- `_GetResult`: fetch one row, enforce the end compiled cursor, update
`__position`. -/
def getResult (c : Cursor) : Option (List Char × Entity) × Cursor :=
  if c.live = false then (none, c)
  else
    match c.rows with
    | [] => (none, { c with live := false })
    | r :: rest =>
      match c.endKey with
      | some k =>
        if c.asc then
          if lexLtB k r.pos then (none, { c with rows := rest, live := false })
          else (some (r.path, r.ent), { c with rows := rest, pos := r.pos })
        else
          if lexLtB r.pos k then (none, { c with rows := rest, live := false })
          else (some (r.path, r.ent), { c with rows := rest, pos := r.pos })
      | none => (some (r.path, r.ent), { c with rows := rest, pos := r.pos })

/-- The `while self.__cursor and not entity` loop of `_Next`, fuel-indexed
(the wrapper supplies sufficient fuel; exhausted fuel returns no entity,
which never happens from the wrapper). -/
def nextAux : Nat → Option (List Char × Entity) → Cursor →
    Option Entity × Cursor
  | 0, _, c => (none, c)
  | fuel + 1, pd, c =>
    if c.live = false then (none, c)
    else
      match pd with
      | some (path, data) =>
        if path ≠ [] ∧ path ∉ c.seen then
          (some data, { c with seen := path :: c.seen })
        else
          nextAux fuel (getResult c).1 (getResult c).2
      | none => nextAux fuel (getResult c).1 (getResult c).2

/-- `QueryCursor._Next`: consume `__next_result`, then scan for the first
not-yet-seen path. -/
def cursorNext (c : Cursor) : Option Entity × Cursor :=
  nextAux (c.rows.length + 2) c.nextRes { c with nextRes := none }

/-- `Skip(count)`. -/
def cursorSkip : Nat → Cursor → Cursor
  | 0, c => c
  | n + 1, c => cursorSkip n (cursorNext c).2

/-- `self.limit is not None and len(self.__seen) >= self.limit`, the break
condition of `PopulateQueryResult`'s loop. -/
def limitReached (c : Cursor) : Bool :=
  match c.limit with
  | some l => decide (l ≤ c.seen.length)
  | none => false

/-- The `while len(result_list) < count` loop of `PopulateQueryResult`; the
fuel is the number of free result slots. -/
def populateAux : Nat → Cursor → List Entity → List Entity × Cursor
  | 0, c, acc => (acc, c)
  | n + 1, c, acc =>
    if limitReached c then (acc, c)
    else
      match cursorNext c with
      | (none, c2) => (acc, c2)
      | (some e, c2) => populateAux n c2 (acc ++ [e])

/-- `PopulateQueryResult(count, result)`: the count is silently capped at
`_MAXIMUM_RESULTS = 1000`; returns the batch, the advanced cursor and the
`more_results` flag. -/
def populateQueryResult (c : Cursor) (count : Nat) :
    List Entity × Cursor × Bool :=
  let capped := if 1000 < count then 1000 else count
  let r := populateAux capped c []
  (r.1, r.2, decide (r.1.length = capped))

/-- `QueryCursor.Count`: counts the raw remaining rows (no deduplication, no
end-cursor check) up to `self.limit`; `none` is the `AttributeError` crash
when `self.__cursor` is already `None`. -/
def cursorCount (c : Cursor) : Option Nat :=
  if c.live = false then none
  else
    match c.limit with
    | none => some c.rows.length
    | some l => some (min c.rows.length l)

/-- The fast-forward loop of `ResumeFromCompiledCursor`, fuel-indexed. -/
def resumeAux : Nat → List Char → Cursor → Cursor
  | 0, _, c => c
  | fuel + 1, target, c =>
    if (if c.asc then lexLtB target c.pos = false ∧ c.live = true
        else lexLtB c.pos target = false ∧ c.live = true) then
      resumeAux fuel target { (getResult c).2 with nextRes := (getResult c).1 }
    else c

/-- `ResumeFromCompiledCursor(cc)`: `target` is the full
`cc.position(0).start_key()` string. -/
def resumeFromCC (c : Cursor) (target : List Char) : Cursor :=
  if c.asc then
    match c.endKey with
    | some ek =>
      if lexLtB target ek = false then { c with pos := target, live := false }
      else resumeAux (c.rows.length + 2) target c
    | none => resumeAux (c.rows.length + 2) target c
  else
    match c.endKey with
    | some ek =>
      if lexLtB ek target = false then { c with pos := target, live := false }
      else resumeAux (c.rows.length + 2) target c
    | none => resumeAux (c.rows.length + 2) target c

/-- Filter operators of `_OPERATOR_MAP`. -/
inductive FilterOp
  | lt
  | le
  | eq
  | gt
  | ge
deriving DecidableEq, Repr

structure QFilter where
  prop : List Char
  op : FilterOp
  value : List Char
deriving DecidableEq, Repr

structure QOrder where
  prop : List Char
  asc : Bool
deriving DecidableEq, Repr

/-- `datastore_pb.Query`, restricted to the fields the embedded logic
reads.  `compiledCursor`/`endCompiledCursor` carry `position(0).start_key()`. -/
structure Query where
  app : List Char
  hasTransaction : Bool
  kind : Option (List Char)
  ancestor : Option Ref
  filters : List QFilter
  orders : List QOrder
  limit : Option Nat
  offset : Option Nat
  compiledCursor : Option (List Char)
  endCompiledCursor : Option (List Char)
deriving DecidableEq, Repr

def keyProp : List Char := '_' :: '_' :: 'k' :: 'e' :: 'y' :: '_' :: '_' :: []

/-- `__GenerateOrderInfo`: drop a trailing `('__key__', ASCENDING)` order. -/
def orderInfo (os : List QOrder) : List QOrder :=
  match os.getLast? with
  | some o => if o.prop = keyProp ∧ o.asc = true then os.dropLast else os
  | none => os

/-- The distinct property names filtered on (`filter_info.keys()`). -/
def filterProps (fs : List QFilter) : List (List Char) :=
  (fs.map (fun f => f.prop)).dedup

/-- Applicability of `__KindQuery`: all filters and orders reference only
`__key__`, and at most one order. -/
def kindQueryOk (q : Query) : Bool :=
  (filterProps q.filters).all (fun p => decide (p = keyProp)) &&
  (orderInfo q.orders).all (fun o => decide (o.prop = keyProp)) &&
  decide ((orderInfo q.orders).length ≤ 1)

/-- Applicability of `__SinglePropertyQuery`. -/
def singlePropOk (q : Query) : Bool :=
  let names := ((filterProps q.filters) ++
    (orderInfo q.orders).map (fun o => o.prop)).dedup.filter
    (fun p => decide (p ≠ keyProp))
  match names with
  | [pn] =>
    decide ((q.filters.filter
        (fun f => decide (f.prop = pn ∧ f.op = FilterOp.eq))).length ≤ 1) &&
    !(decide (1 < (orderInfo q.orders).length) ||
      (match orderInfo q.orders with
       | o :: _ => decide (o.prop = keyProp)
       | [] => false)) &&
    q.ancestor.isNone && q.kind.isSome
  | _ => false

/-- Applicability of `__MergeJoinQuery`. -/
def mergeJoinOk (q : Query) : Bool :=
  decide (orderInfo q.orders = []) && q.ancestor.isNone && q.kind.isSome &&
  q.filters.all (fun f => decide (f.op = FilterOp.eq))

inductive Strategy
  | kindQuery
  | singleProp
  | mergeJoin
  | lastResort
deriving DecidableEq, Repr

inductive ErrCode
  | badRequest
  | needIndex
deriving DecidableEq, Repr

inductive PlanErr
  | txnNotAncestor
  | tooManyComponents
  | appMismatch
  | needIndexMissing
deriving DecidableEq, Repr

def errCode : PlanErr → ErrCode
  | .needIndexMissing => .needIndex
  | _ => .badRequest

/-- `len(filter_list) + len(order_list) (+ 1 for an ancestor)`. -/
def numComponents (q : Query) : Nat :=
  q.filters.length + q.orders.length + (if q.ancestor.isSome then 1 else 0)

/-- The validation and strategy-selection pipeline of `__GetQueryCursor`, up
to where the chosen strategy's SQL is executed: transactional queries must
have an ancestor, then the `_MAX_QUERY_COMPONENTS = 63` size check, then the
app check, then `_QUERY_STRATEGIES` in order.  `requireIndexes` and
`indexMatch` parameterize `__LastResortQuery`'s composite-index gate (the
lookup itself delegates to the external `datastore_index` module, whose
`Normalize` is likewise external and taken as the identity in the
applicability predicates above); `__StarSchemaQueryPlan` always yields a
plan, so a strategy is always found. -/
def planQuery (requireIndexes indexMatch : Bool) (s : Store) (q : Query) :
    Except PlanErr Strategy :=
  if q.hasTransaction = true ∧ q.ancestor.isNone = true then
    Except.error PlanErr.txnNotAncestor
  else if 63 < numComponents q then Except.error PlanErr.tooManyComponents
  else if validApp s q.app = false then Except.error PlanErr.appMismatch
  else if kindQueryOk q then Except.ok Strategy.kindQuery
  else if singlePropOk q then Except.ok Strategy.singleProp
  else if mergeJoinOk q then Except.ok Strategy.mergeJoin
  else if requireIndexes && !indexMatch then
    Except.error PlanErr.needIndexMissing
  else Except.ok Strategy.lastResort

/-- `start_key.split('!')` with the exactly-two-parts unpacking of
`__GetQueryCursor`; `none` models the `ValueError` for any other shape. -/
def splitBang (s : List Char) : Option (List Char × List Char) :=
  match s.splitOn '!' with
  | [a, b] => some (a, b)
  | _ => none

def digitVal (c : Char) : Nat := c.toNat - 48

def parseNatAux : List Char → Nat → Nat
  | [], acc => acc
  | c :: rest, acc => parseNatAux rest (acc * 10 + digitVal c)

/-- `int(n)` on the digit strings the cursor markers contain; `none` models
the `ValueError` on anything else. -/
def parseNatQ (s : List Char) : Option Nat :=
  if s ≠ [] ∧ s.all (fun c => c.isDigit) then some (parseNatAux s 0) else none

/-- `QueryCursor.__init__` over the rows the executed SQL returned. -/
def mkCursor (q : Query) (rows : List Row) : Cursor where
  rows := rows
  live := true
  seen := []
  nextRes := none
  pos := []
  limit := match q.limit with
    | some l => some (l + q.offset.getD 0)
    | none => none
  asc := match q.orders with
    | [] => true
    | o :: _ => o.asc
  endKey := q.endCompiledCursor

/-- The SQL `LIMIT` clause, cursor construction, resume and skip of
`__GetQueryCursor`'s tail; `matched` stands for the rows the backend returns
for the strategy's un-`LIMIT`ed SQL. -/
def applySqlAndResume (q : Query) (matched : List Row)
    (resumeKey : Option (List Char)) : Cursor :=
  let stream := match q.limit, q.offset with
    | some l, some off => (matched.drop off).take l
    | some l, none => matched.take l
    | none, _ => matched
  let q3 := match q.limit, q.offset with
    | some _, some _ => { q with offset := some 0 }
    | _, _ => q
  let c := mkCursor q3 stream
  let c2 := match resumeKey with
    | some sk => resumeFromCC c sk
    | none => c
  match q3.offset with
  | some off => cursorSkip off c2
  | none => c2

/-- The compiled-cursor handling plus cursor-construction tail of
`__GetQueryCursor` (after strategy selection): fold the marker's row offset
into offset/limit, apply the `LIMIT` clause, resume, skip. -/
def getQueryCursorTail (q : Query) (matched : List Row) : Option Cursor :=
  match q.compiledCursor with
  | some sk =>
    match splitBang sk with
    | none => none
    | some pr =>
      match parseNatQ pr.2 with
      | none => none
      | some n =>
        let q2 := { q with offset := some n, limit := some (q.limit.getD 0 + n) }
        some (applySqlAndResume q2 matched (some sk))
  | none => some (applySqlAndResume q matched none)

/-- `_Dynamic_Count`: clamp the query's limit to `_MAXIMUM_RESULTS = 1000`,
plan, build the cursor, count. -/
def dynamicCount (requireIndexes indexMatch : Bool) (s : Store) (q : Query)
    (matched : List Row) : Option Nat :=
  let q1 := { q with limit := some (match q.limit with
    | some l => min l 1000
    | none => 1000) }
  match planQuery requireIndexes indexMatch s q1 with
  | Except.error _ => none
  | Except.ok _ =>
    match getQueryCursorTail q1 matched with
    | none => none
    | some c => cursorCount c

/-- `entity_pb.CompositeIndex` lifecycle states. -/
inductive IndexState
  | writeOnly
  | readWrite
  | deleted
  | errorState
deriving DecidableEq, Repr, Fintype

/-- `_INDEX_STATE_TRANSITIONS`. -/
def indexStateTransitions : IndexState → List IndexState
  | .writeOnly => [.readWrite, .deleted, .errorState]
  | .readWrite => [.deleted]
  | .errorState => [.deleted]
  | .deleted => [.errorState]

/-- The state update of `_Dynamic_UpdateIndex` on the found index: raise
BadRequest (`none`, stored state untouched) unless the requested state equals
the current one or the transition is listed; otherwise `set_state`. -/
def updateIndexState (cur req : IndexState) : Option IndexState :=
  if req ≠ cur ∧ req ∉ indexStateTransitions cur then none
  else some req

/-- A stored composite index, its definition identified by its id. -/
structure CompIndex where
  id : Nat
  state : IndexState
deriving DecidableEq, Repr

/-- `_Dynamic_UpdateIndex` on the stub's index list: `__FindIndex`, the
transition check, then `set_state`; both failure exits (`none`) raise before
any mutation, so the caller's stored list is unchanged. -/
def dynamicUpdateIndex (idxs : List CompIndex) (i : Nat) (req : IndexState) :
    Option (List CompIndex) :=
  match idxs.find? (fun x => decide (x.id = i)) with
  | none => none
  | some cur =>
    match updateIndexState cur.state req with
    | none => none
    | some st =>
      some (idxs.map (fun x => if x.id = i then { x with state := st } else x))

/-- The transactional write buffer: `__tx_writes` (key → pending entity) and
`__tx_deletes` (pending delete keys). -/
structure TxBuf where
  writes : List (Ref × Entity)
  deletes : List Ref
deriving DecidableEq, Repr

/-- `_Dynamic_Put` inside a transaction (per entity):
`__tx_writes[key] = entity; __tx_deletes.discard(key)`. -/
def txPut (t : TxBuf) (e : Entity) : TxBuf where
  writes := (e.key, e) :: t.writes.filter (fun kv => decide (kv.1 ≠ e.key))
  deletes := t.deletes.filter (fun k => decide (k ≠ e.key))

/-- `_Dynamic_Delete` inside a transaction (per key):
`__tx_deletes.add(key); __tx_writes.pop(key, None)`. -/
def txDelete (t : TxBuf) (k : Ref) : TxBuf where
  writes := t.writes.filter (fun kv => decide (kv.1 ≠ k))
  deletes := if k ∈ t.deletes then t.deletes else k :: t.deletes

def txKeys (t : TxBuf) : List Ref := t.writes.map (fun kv => kv.1)

/-- The write-set and delete-set share no key. -/
def txDisjoint (t : TxBuf) : Prop := ∀ k ∈ txKeys t, k ∉ t.deletes

/-- C6: `UpdateIndex` succeeds exactly when the requested state equals the
current state or is a legal transition (WRITE_ONLY to READ_WRITE, DELETED or
ERROR; READ_WRITE to DELETED; ERROR to DELETED; DELETED to ERROR); any other
request is rejected with BadRequest (`none`) before `set_state` runs, so the
stored index state is unchanged; on success the stored state becomes the
requested one. -/
theorem claim_C6 : ∀ cur req : IndexState,
    ((updateIndexState cur req).isSome = true ↔ (req = cur ∨
      (cur = IndexState.writeOnly ∧ (req = IndexState.readWrite ∨
        req = IndexState.deleted ∨ req = IndexState.errorState)) ∨
      (cur = IndexState.readWrite ∧ req = IndexState.deleted) ∨
      (cur = IndexState.errorState ∧ req = IndexState.deleted) ∨
      (cur = IndexState.deleted ∧ req = IndexState.errorState))) ∧
    (∀ st, updateIndexState cur req = some st → st = req) := by
  decide

/-- C7: inside a transaction, a Put of an entity places its key in the
write-set and drops it from the delete-set; a Delete places the key in the
delete-set and drops it from the write-set; consequently both sets stay
disjoint across every transactional operation. -/
theorem claim_C7 (t : TxBuf) (e : Entity) (k : Ref) (hd : txDisjoint t) :
    (e.key ∈ txKeys (txPut t e) ∧ e.key ∉ (txPut t e).deletes) ∧
    (k ∈ (txDelete t k).deletes ∧ k ∉ txKeys (txDelete t k)) ∧
    txDisjoint (txPut t e) ∧ txDisjoint (txDelete t k) := by
  refine ⟨⟨?_, ?_⟩, ⟨?_, ?_⟩, ?_, ?_⟩
  · simp [txKeys, txPut]
  · simp [txPut, List.mem_filter]
  · simp only [txDelete]
    split
    · assumption
    · exact List.mem_cons_self k _
  · simp [txKeys, txDelete, List.mem_filter]
  · intro k2 hk2 hk2d
    simp only [txKeys, txPut, List.map_cons, List.mem_cons, List.mem_map,
      List.mem_filter] at hk2
    simp only [txPut, List.mem_filter, decide_eq_true_eq] at hk2d
    rcases hk2 with hk2 | ⟨kv, ⟨hkv, _⟩, hfst⟩
    · exact hk2d.2 hk2
    · exact hd k2 (List.mem_map.mpr ⟨kv, hkv, hfst⟩) hk2d.1
  · intro k2 hk2 hk2d
    simp only [txKeys, txDelete, List.mem_map, List.mem_filter,
      decide_eq_true_eq] at hk2
    obtain ⟨kv, ⟨hkv, hne⟩, hfst⟩ := hk2
    have hk2t : k2 ∈ txKeys t := List.mem_map.mpr ⟨kv, hkv, hfst⟩
    have hk2nd : k2 ∉ t.deletes := hd k2 hk2t
    simp only [txDelete] at hk2d
    by_cases hmem : k ∈ t.deletes
    · simp only [if_pos hmem] at hk2d
      exact hk2nd hk2d
    · simp only [if_neg hmem] at hk2d
      rcases List.mem_cons.mp hk2d with he | he
      · exact hne (hfst.trans he)
      · exact hk2nd he

/-- C8: a query carrying a transaction but no ancestor fails planning with
BadRequest at the very first check of `__GetQueryCursor`, before the size
check, the app check or any strategy; an ancestor query in a transaction is
not rejected by that check. -/
theorem claim_C8 (ri im : Bool) (s : Store) (q1 q2 : Query)
    (h1 : q1.hasTransaction = true) (h2 : q1.ancestor = none)
    (_h3 : q2.hasTransaction = true) (h4 : q2.ancestor.isSome = true) :
    planQuery ri im s q1 = Except.error PlanErr.txnNotAncestor ∧
    planQuery ri im s q2 ≠ Except.error PlanErr.txnNotAncestor := by
  constructor
  · unfold planQuery
    rw [if_pos ⟨h1, by rw [h2]; rfl⟩]
  · unfold planQuery
    have : ¬ (q2.hasTransaction = true ∧ q2.ancestor.isNone = true) := by
      intro hc
      rw [Option.isNone_iff_eq_none] at hc
      rw [hc.2] at h4
      cases h4
    rw [if_neg this]
    split_ifs <;> simp

/-- C9: a query with more than 63 filter+order+ancestor components fails
planning with a BadRequest error; one with exactly 63 components is not
rejected by the size check. -/
theorem claim_C9 (ri im : Bool) (s : Store) (q1 q2 : Query)
    (h1 : 63 < numComponents q1) (h2 : numComponents q2 = 63) :
    (∃ er, planQuery ri im s q1 = Except.error er ∧ errCode er = ErrCode.badRequest) ∧
    planQuery ri im s q2 ≠ Except.error PlanErr.tooManyComponents := by
  constructor
  · unfold planQuery
    by_cases ha : q1.hasTransaction = true ∧ q1.ancestor.isNone = true
    · rw [if_pos ha]
      exact ⟨PlanErr.txnNotAncestor, rfl, rfl⟩
    · rw [if_neg ha, if_pos h1]
      exact ⟨PlanErr.tooManyComponents, rfl, rfl⟩
  · unfold planQuery
    split_ifs with hc1 hc2 <;> try simp
    omega

/-- The allocator cache/durable-counter invariant: the cached block never
runs past the durable counter. -/
def allocInv (σ : AllocState) : Prop := σ.next + σ.rem ≤ σ.durable

instance (σ : AllocState) : Decidable (allocInv σ) := by
  unfold allocInv
  infer_instance

theorem allocStep_spec (σ : AllocState) (n : Nat) (h : allocInv σ) :
    σ.next ≤ (allocStep σ n).1 ∧
    (allocStep σ n).2.next = (allocStep σ n).1 + n ∧
    allocInv (allocStep σ n).2 := by
  have hb1 : n ≤ max 1000 n := Nat.le_max_right 1000 n
  unfold allocStep allocInv at *
  split_ifs with hc <;> simp_all <;> omega

theorem allocRuns_start_ge (counts : List Nat) : ∀ (σ : AllocState),
    allocInv σ → ∀ r ∈ allocRuns σ counts, σ.next ≤ r.1 := by
  induction counts with
  | nil => intro σ _ r hr; cases hr
  | cons n rest ih =>
    intro σ hσ r hr
    obtain ⟨hge, hnext, hinv⟩ := allocStep_spec σ n hσ
    rcases List.mem_cons.mp hr with he | he
    · rw [he]; exact hge
    · have := ih (allocStep σ n).2 hinv r he
      omega

/-- C3 (amended): ranges issued by a sequence of allocations are disjoint and
strictly increasing, and the durable counter is advanced by
`max(1000, count)` exactly when the cached remaining count is ≤ the requested
count (the code refills on `size >= block_size`, not only on `>`). -/
theorem claim_C3 (σ τ : AllocState) (counts : List Nat) (n : Nat)
    (hinv : allocInv σ) (hc : ∀ m ∈ counts, 1 ≤ m) :
    List.Pairwise (fun a b => a.1 + a.2 ≤ b.1 ∧ a.1 < b.1)
      (allocRuns σ counts) ∧
    (allocStep τ n).2.durable =
      τ.durable + (if τ.rem ≤ n then max 1000 n else 0) := by
  constructor
  · induction counts generalizing σ with
    | nil => exact List.Pairwise.nil
    | cons m rest ih =>
      obtain ⟨hge, hnext, hinv2⟩ := allocStep_spec σ m hinv
      refine List.Pairwise.cons ?_ (ih (allocStep σ m).2 hinv2
        (fun x hx => hc x (List.mem_cons_of_mem m hx)))
      intro r hr
      have hstart := allocRuns_start_ge rest (allocStep σ m).2 hinv2 r hr
      have hm : 1 ≤ m := hc m (List.mem_cons_self m rest)
      constructor <;> omega
  · unfold allocStep
    split_ifs <;> simp

/-- C3 counterexample to the claim as stated: from the freshly provisioned
state, one `Allocate(997)` leaves a cache with 3 remaining ids; a following
`Allocate(3)` has `remaining = count`, not `remaining < count`, yet the
durable counter is advanced. -/
theorem claim_C3_counterexample :
    (allocStep ⟨0, 0, 1⟩ 997).2 = (⟨998, 3, 1001⟩ : AllocState) ∧
    ¬ ((3 : Nat) < 3) ∧
    (allocStep ⟨998, 3, 1001⟩ 3).2.durable ≠
      (⟨998, 3, 1001⟩ : AllocState).durable := by
  refine ⟨by decide, by decide, by decide⟩

theorem claim_C3_witness :
    allocInv ⟨0, 0, 1⟩ ∧
    (List.Pairwise (fun a b => a.1 + a.2 ≤ b.1 ∧ a.1 < b.1)
      (allocRuns ⟨0, 0, 1⟩ [1, 1000, 5]) ∧
    (allocStep ⟨998, 3, 1001⟩ 3).2.durable =
      (⟨998, 3, 1001⟩ : AllocState).durable +
        (if (⟨998, 3, 1001⟩ : AllocState).rem ≤ 3 then max 1000 3 else 0)) :=
  ⟨by decide, claim_C3 ⟨0, 0, 1⟩ ⟨998, 3, 1001⟩ [1, 1000, 5] 3 (by decide)
    (by decide)⟩

instance (t : TxBuf) : Decidable (txDisjoint t) := by
  unfold txDisjoint
  exact List.decidableBAll _ _

def wRefA : Ref := ⟨['a'], [], [⟨['K'], Sum.inr ['x']⟩]⟩

def wRefB : Ref := ⟨['a'], [], [⟨['K'], Sum.inr ['y']⟩]⟩

def wEntA : Entity := ⟨wRefA, [⟨['K'], Sum.inr ['x']⟩], []⟩

def wEntB : Entity := ⟨wRefB, [⟨['K'], Sum.inr ['y']⟩], []⟩

def wTx : TxBuf := ⟨[(wRefA, wEntA)], [wRefB]⟩

theorem claim_C7_witness :
    txDisjoint wTx ∧
    ((wEntB.key ∈ txKeys (txPut wTx wEntB) ∧
        wEntB.key ∉ (txPut wTx wEntB).deletes) ∧
      (wRefA ∈ (txDelete wTx wRefA).deletes ∧
        wRefA ∉ txKeys (txDelete wTx wRefA)) ∧
      txDisjoint (txPut wTx wEntB) ∧ txDisjoint (txDelete wTx wRefA)) :=
  ⟨by decide, claim_C7 wTx wEntB wRefA (by decide)⟩

def wStore : Store := ⟨['a'], false, [], [], [], [], []⟩

def wQTxnNoAnc : Query :=
  ⟨['a'], true, none, none, [], [], none, none, none, none⟩

def wQTxnAnc : Query :=
  ⟨['a'], true, none, some wRefA, [], [], none, none, none, none⟩

theorem claim_C8_witness :
    wQTxnNoAnc.hasTransaction = true ∧ wQTxnNoAnc.ancestor = none ∧
    wQTxnAnc.hasTransaction = true ∧ wQTxnAnc.ancestor.isSome = true ∧
    (planQuery false false wStore wQTxnNoAnc =
        Except.error PlanErr.txnNotAncestor ∧
      planQuery false false wStore wQTxnAnc ≠
        Except.error PlanErr.txnNotAncestor) :=
  ⟨rfl, rfl, rfl, rfl,
    claim_C8 false false wStore wQTxnNoAnc wQTxnAnc rfl rfl rfl rfl⟩

def wQ64 : Query :=
  ⟨['a'], false, none, none, List.replicate 64 ⟨['p'], FilterOp.eq, []⟩,
    [], none, none, none, none⟩

def wQ63 : Query :=
  ⟨['a'], false, none, none, List.replicate 63 ⟨['p'], FilterOp.eq, []⟩,
    [], none, none, none, none⟩

theorem claim_C9_witness :
    63 < numComponents wQ64 ∧ numComponents wQ63 = 63 ∧
    ((∃ er, planQuery false false wStore wQ64 = Except.error er ∧
        errCode er = ErrCode.badRequest) ∧
      planQuery false false wStore wQ63 ≠
        Except.error PlanErr.tooManyComponents) :=
  ⟨by decide, by decide,
    claim_C9 false false wStore wQ64 wQ63 (by decide) (by decide)⟩

/-- C2 counterexample to the claim as stated: the path encoding is not
collision-free — a one-element path whose name contains the separators
`'!'` and `':'` encodes to the same bytes as a two-element path. -/
theorem claim_C2_counterexample :
    encodePath [⟨['a'], Sum.inr ['b', '!', 'c', ':', 'd']⟩] =
      encodePath [⟨['a'], Sum.inr ['b']⟩, ⟨['c'], Sum.inr ['d']⟩] ∧
    ([⟨['a'], Sum.inr ['b', '!', 'c', ':', 'd']⟩] : List PathElem) ≠
      [⟨['a'], Sum.inr ['b']⟩, ⟨['c'], Sum.inr ['d']⟩] := by
  decide

/-- C2 (amended): restricted to paths whose kinds and names use only
characters above `':'` (no separators, no digits; names nonempty) and whose
ids are below `10^10`, the path encoding is total, collision-free and
order-preserving: byte-lexicographic order on the encodings coincides with
ancestor-prefix-then-sibling order on the paths. -/
theorem claim_C2 (p q : List PathElem) (hp : goodPath p = true)
    (hq : goodPath q = true) :
    (encodePath p = encodePath q ↔ p = q) ∧
    (pathLtB p q = true ↔ lexLtB (encodePath p) (encodePath q) = true) := by
  refine ⟨⟨encodePath_inj hp hq, fun h => by rw [h]⟩, ?_, ?_⟩
  · exact pathLtB_imp_lexLtB hp hq
  · intro h
    by_cases hpq : p = q
    · subst hpq
      rw [lexLtB_irrefl] at h
      cases h
    · rcases pathLtB_trichotomy hpq with hc | hc
      · exact hc
      · have h2 := lexLtB_asymm (pathLtB_imp_lexLtB hq hp hc)
        rw [h] at h2
        exact Bool.noConfusion h2

theorem claim_C2_witness :
    goodPath [⟨['K'], Sum.inl 5⟩] = true ∧
    goodPath [⟨['K'], Sum.inl 5⟩, ⟨['L'], Sum.inr ['a']⟩] = true ∧
    ((encodePath [⟨['K'], Sum.inl 5⟩] =
        encodePath [⟨['K'], Sum.inl 5⟩, ⟨['L'], Sum.inr ['a']⟩] ↔
      ([⟨['K'], Sum.inl 5⟩] : List PathElem) =
        [⟨['K'], Sum.inl 5⟩, ⟨['L'], Sum.inr ['a']⟩]) ∧
    (pathLtB [⟨['K'], Sum.inl 5⟩] [⟨['K'], Sum.inl 5⟩, ⟨['L'], Sum.inr ['a']⟩] = true ↔
      lexLtB (encodePath [⟨['K'], Sum.inl 5⟩])
        (encodePath [⟨['K'], Sum.inl 5⟩, ⟨['L'], Sum.inr ['a']⟩]) = true)) :=
  ⟨by decide, by decide, claim_C2 _ _ (by decide) (by decide)⟩

theorem getTablePfx_fst (s : Store) (a n : List Char) :
    (getTablePfx s a n).1 = tablePfx a n := by
  unfold getTablePfx
  split_ifs <;> rfl

theorem getTablePfx_appId (s : Store) (a n : List Char) :
    (getTablePfx s a n).2.appId = s.appId := by
  unfold getTablePfx
  split_ifs <;> rfl

theorem getTablePfx_trusted (s : Store) (a n : List Char) :
    (getTablePfx s a n).2.trusted = s.trusted := by
  unfold getTablePfx
  split_ifs <;> rfl

theorem getTablePfx_primary (s : Store) (a n : List Char) :
    (getTablePfx s a n).2.primary = s.primary := by
  unfold getTablePfx
  split_ifs <;> rfl

theorem getTablePfx_index (s : Store) (a n : List Char) :
    (getTablePfx s a n).2.index = s.index := by
  unfold getTablePfx
  split_ifs <;> rfl

theorem getTablePfx_mem (s : Store) (a n : List Char) :
    (a, n) ∈ (getTablePfx s a n).2.namespaces := by
  unfold getTablePfx
  split_ifs with h
  · exact h
  · exact List.mem_cons_self _ _

theorem getTablePfx_of_mem {s : Store} {a n : List Char}
    (h : (a, n) ∈ s.namespaces) : getTablePfx s a n = (tablePfx a n, s) := by
  unfold getTablePfx
  rw [if_pos h]

theorem validApp_congr {s s2 : Store} (ha : s2.appId = s.appId)
    (ht : s2.trusted = s.trusted) (a : List Char) :
    validApp s2 a = validApp s a := by
  unfold validApp
  rw [ha, ht]

theorem deleteEntityRowsIndex_fields (s : Store) (keys : List Ref) :
    (deleteEntityRowsIndex s keys).appId = s.appId ∧
    (deleteEntityRowsIndex s keys).trusted = s.trusted ∧
    (deleteEntityRowsIndex s keys).primary = s.primary := by
  unfold deleteEntityRowsIndex
  split
  · exact ⟨rfl, rfl, rfl⟩
  · exact ⟨getTablePfx_appId _ _ _, getTablePfx_trusted _ _ _,
      getTablePfx_primary _ _ _⟩

theorem allocateIds_fields {s : Store} {p : List Char} {size i : Nat}
    {s2 : Store} (h : allocateIds s p size = some (i, s2)) :
    s2.appId = s.appId ∧ s2.trusted = s.trusted ∧ s2.primary = s.primary ∧
    s2.index = s.index ∧ s2.namespaces = s.namespaces := by
  unfold allocateIds at h
  cases hl : List.lookup p s.idSeq with
  | none => rw [hl] at h; cases h
  | some d =>
    rw [hl] at h
    simp only [Option.some.injEq, Prod.mk.injEq] at h
    rw [← h.2]
    exact ⟨rfl, rfl, rfl, rfl, rfl⟩

theorem putEntitiesOne_spec (s : Store) (e : Entity) :
    (∃ rest, (putEntitiesOne s e).primary =
      (⟨tablePfx e.key.app e.key.ns, encodePath e.key.path, entityKind e, e⟩ :
        EntityRow) :: rest) ∧
    (putEntitiesOne s e).appId = s.appId ∧
    (putEntitiesOne s e).trusted = s.trusted ∧
    (e.key.app, e.key.ns) ∈ (putEntitiesOne s e).namespaces := by
  obtain ⟨hd1, hd2, hd3⟩ := deleteEntityRowsIndex_fields s [e.key]
  unfold putEntitiesOne
  simp only [getTablePfx_fst]
  set s1 := deleteEntityRowsIndex s [e.key] with hs1
  set s2 := (getTablePfx s1 e.key.app e.key.ns).2 with hs2
  have hmem2 : (e.key.app, e.key.ns) ∈ s2.namespaces := getTablePfx_mem _ _ _
  set row : EntityRow :=
    ⟨tablePfx e.key.app e.key.ns, encodePath e.key.path, entityKind e, e⟩ with hrow
  set s3 : Store := { s2 with primary := replaceRow s2.primary row } with hs3
  have hmem3 : (e.key.app, e.key.ns) ∈ s3.namespaces := hmem2
  rw [getTablePfx_of_mem hmem3]
  refine ⟨⟨_, rfl⟩, ?_, ?_, hmem3⟩
  · show s2.appId = s.appId
    rw [hs2, getTablePfx_appId, hd1]
  · show s2.trusted = s.trusted
    rw [hs2, getTablePfx_trusted, hd2]

/-- After `__PutEntities` stores an entity, `_Dynamic_Get` of its key finds
exactly that entity. -/
theorem putEntitiesOne_get (s : Store) (e : Entity)
    (hv : validApp s e.key.app = true) :
    dynamicGetOne (putEntitiesOne s e) e.key =
      some (putEntitiesOne s e, some e) := by
  obtain ⟨⟨rest, hprim⟩, happ, htr, hmem⟩ := putEntitiesOne_spec s e
  unfold dynamicGetOne
  have hv2 : validApp (putEntitiesOne s e) e.key.app = true := by
    rw [validApp_congr happ htr]
    exact hv
  rw [hv2]
  simp only [Bool.true_eq_false, if_false, getTablePfx_of_mem hmem]
  rw [hprim]
  rw [List.find?_cons_of_pos _ (by simp)]
  rfl

/-- C1: a non-transactional Put of an entity followed by a Get of the key
the Put returned yields exactly the stored entity: the entity the request
carried, with its key completed by id allocation when it was incomplete (its
properties are untouched, and for an already-complete key the entity is
returned verbatim). -/
theorem claim_C1 (s : Store) (e : Entity) (s2 : Store) (e2 : Entity)
    (h : dynamicPutOne s e = some (s2, e2)) :
    dynamicGetOne s2 e2.key = some (s2, some e2) ∧ e2.props = e.props ∧
    (pendingId e = false → e2 = e) := by
  unfold dynamicPutOne at h
  by_cases hv : validApp s e.key.app = false
  · rw [if_pos hv] at h
    cases h
  · rw [if_neg hv] at h
    have hvt : validApp s e.key.app = true := by
      cases hb : validApp s e.key.app
      · exact absurd hb hv
      · rfl
    by_cases hp : e.key.path = []
    · rw [if_pos hp] at h
      cases h
    · rw [if_neg hp] at h
      by_cases hpend : pendingId e = true
      · rw [if_pos hpend] at h
        by_cases hg : e.group ≠ []
        · rw [if_pos hg] at h
          cases h
        · rw [if_neg hg] at h
          cases ha : allocateIds (getTablePfx s e.key.app e.key.ns).2
              (getTablePfx s e.key.app e.key.ns).1 1 with
          | none => rw [ha] at h; cases h
          | some pr =>
            obtain ⟨i, sA⟩ := pr
            rw [ha] at h
            simp only [Option.some.injEq, Prod.mk.injEq] at h
            obtain ⟨hs2, he2⟩ := h
            obtain ⟨ha1, ha2, _, _, _⟩ := allocateIds_fields ha
            have hva : validApp sA e.key.app = true := by
              rw [validApp_congr ha1 ha2, validApp_congr (getTablePfx_appId s _ _)
                (getTablePfx_trusted s _ _)]
              exact hvt
            have hget := putEntitiesOne_get sA (completeEnt e i) hva
            rw [← hs2, ← he2]
            refine ⟨hget, rfl, ?_⟩
            intro hpf
            rw [hpf] at hpend
            cases hpend
      · rw [if_neg hpend] at h
        by_cases hg : e.group = []
        · rw [if_pos hg] at h
          cases h
        · rw [if_neg hg] at h
          simp only [Option.some.injEq, Prod.mk.injEq] at h
          obtain ⟨hs2, he2⟩ := h
          have hget := putEntitiesOne_get s e hvt
          rw [← hs2, ← he2]
          exact ⟨hget, rfl, fun _ => rfl⟩

def c1Store : Store := ⟨['a'], false, [], [], [], [], []⟩

def c1Ent : Entity :=
  ⟨⟨['a'], [], [⟨['K'], Sum.inr ['x']⟩]⟩, [⟨['K'], Sum.inr ['x']⟩],
    [⟨['n'], ['v']⟩]⟩

def c1Put : Store × Entity := (dynamicPutOne c1Store c1Ent).getD (c1Store, c1Ent)

theorem claim_C1_witness :
    dynamicPutOne c1Store c1Ent = some (c1Put.1, c1Put.2) ∧
    (dynamicGetOne c1Put.1 c1Put.2.key = some (c1Put.1, some c1Put.2) ∧
      c1Put.2.props = c1Ent.props ∧
      (pendingId c1Ent = false → c1Put.2 = c1Ent)) :=
  ⟨by decide, claim_C1 c1Store c1Ent c1Put.1 c1Put.2 (by decide)⟩

def c4K1 : Ref := ⟨['a'], [], [⟨['K'], Sum.inr ['x']⟩]⟩

def c4K2 : Ref := ⟨['a'], ['b'], [⟨['K'], Sum.inr ['y']⟩]⟩

def c4Ent1 : Entity := ⟨c4K1, [⟨['K'], Sum.inr ['x']⟩], []⟩

def c4Ent2 : Entity := ⟨c4K2, [⟨['K'], Sum.inr ['y']⟩], []⟩

def c4Row1 : EntityRow := ⟨tablePfx ['a'] [], encodePath c4K1.path, ['K'], c4Ent1⟩

def c4Row2 : EntityRow :=
  ⟨tablePfx ['a'] ['b'], encodePath c4K2.path, ['K'], c4Ent2⟩

def c4Store : Store :=
  ⟨['a'], false, [(['a'], []), (['a'], ['b'])], [], [], [c4Row1, c4Row2], []⟩

/-- C4: evaluation of the embedded `_Dynamic_Delete` at the failing input.
Both stored keys are passed to one non-transactional Delete, yet only the
first `(app, namespace)` group's row is removed: the `return` inside
`__DeleteEntityRows`'s groupby loop abandons the remaining groups, so the
row of the key in namespace `"b"` survives, contradicting "the index rows
and then the primary rows of every given key are removed".  (Deleting an
absent key is indeed a no-op: the row filter simply matches nothing.) -/
theorem claim_C4_theorem :
    dynamicDelete c4Store [c4K1, c4K2] =
      some { c4Store with primary := [c4Row2] } ∧
    c4Row2 ∈ ((dynamicDelete c4Store [c4K1, c4K2]).getD c4Store).primary ∧
    dynamicDelete c4Store [⟨['a'], [], [⟨['K'], Sum.inr ['z']⟩]⟩] =
      some c4Store := by
  refine ⟨by decide, by decide, by decide⟩

/-- The encoded `__path__` of an entity, the value the result-row path
column carries for rows originating in the `Entities` table. -/
def entPath (e : Entity) : List Char := encodePath e.key.path

/-- Every backend row's path column is the encoded path of its entity, as
holds for the `SELECT Entities.__path__, Entities.entity` plans. -/
def rowsOk (c : Cursor) : Prop := ∀ r ∈ c.rows, r.path = entPath r.ent

def pdOk (pd : Option (List Char × Entity)) : Prop :=
  ∀ p e, pd = some (p, e) → p = entPath e

def cursorOk (c : Cursor) : Prop := rowsOk c ∧ pdOk c.nextRes

/-- Decidable form of `cursorOk`. -/
def cursorConsistentB (c : Cursor) : Bool :=
  c.rows.all (fun r => decide (r.path = entPath r.ent)) &&
  (match c.nextRes with
   | some pe => decide (pe.1 = entPath pe.2)
   | none => true)

theorem cursorConsistentB_ok {c : Cursor} (h : cursorConsistentB c = true) :
    cursorOk c := by
  unfold cursorConsistentB at h
  rw [Bool.and_eq_true] at h
  constructor
  · intro r hr
    exact of_decide_eq_true (List.all_eq_true.mp h.1 r hr)
  · intro p e hpe
    rw [hpe] at h
    exact of_decide_eq_true h.2

theorem getResult_spec (c : Cursor) :
    (getResult c).2.seen = c.seen ∧
    (getResult c).2.nextRes = c.nextRes ∧
    (rowsOk c → rowsOk (getResult c).2) ∧
    (rowsOk c → pdOk (getResult c).1) := by
  obtain ⟨rows, live, seen, nextRes, qpos, limit, asc, endKey⟩ := c
  cases live with
  | false => exact ⟨rfl, rfl, fun h => h, fun _ p e hpe => by cases hpe⟩
  | true =>
    cases rows with
    | nil =>
      refine ⟨rfl, rfl, fun h => ?_, fun _ p e hpe => by cases hpe⟩
      intro r hrr
      cases hrr
    | cons r rest =>
      have htail : rowsOk ⟨r :: rest, true, seen, nextRes, qpos, limit, asc, endKey⟩ →
          ∀ x ∈ rest, x.path = entPath x.ent :=
        fun h x hx => h x (List.mem_cons_of_mem r hx)
      have hhead : rowsOk ⟨r :: rest, true, seen, nextRes, qpos, limit, asc, endKey⟩ →
          pdOk (some (r.path, r.ent)) := by
        intro h p e hpe
        injection hpe with h1
        injection h1 with h2 h3
        rw [← h2, ← h3]
        exact h r (List.mem_cons_self r rest)
      cases endKey with
      | none => exact ⟨rfl, rfl, htail, hhead⟩
      | some k =>
        cases asc with
        | true =>
          by_cases hk : lexLtB k r.pos = true
          · have hred : getResult ⟨r :: rest, true, seen, nextRes, qpos, limit,
                true, some k⟩ =
                (none, ⟨rest, false, seen, nextRes, qpos, limit, true, some k⟩) := by
              simp [getResult, hk]
            rw [hred]
            exact ⟨rfl, rfl, htail, fun _ p e hpe => by cases hpe⟩
          · have hred : getResult ⟨r :: rest, true, seen, nextRes, qpos, limit,
                true, some k⟩ =
                (some (r.path, r.ent),
                  ⟨rest, true, seen, nextRes, r.pos, limit, true, some k⟩) := by
              simp [getResult, hk]
            rw [hred]
            exact ⟨rfl, rfl, htail, hhead⟩
        | false =>
          by_cases hk : lexLtB r.pos k = true
          · have hred : getResult ⟨r :: rest, true, seen, nextRes, qpos, limit,
                false, some k⟩ =
                (none, ⟨rest, false, seen, nextRes, qpos, limit, false, some k⟩) := by
              simp [getResult, hk]
            rw [hred]
            exact ⟨rfl, rfl, htail, fun _ p e hpe => by cases hpe⟩
          · have hred : getResult ⟨r :: rest, true, seen, nextRes, qpos, limit,
                false, some k⟩ =
                (some (r.path, r.ent),
                  ⟨rest, true, seen, nextRes, r.pos, limit, false, some k⟩) := by
              simp [getResult, hk]
            rw [hred]
            exact ⟨rfl, rfl, htail, hhead⟩

theorem nextAux_spec : ∀ (fuel : Nat) (pd : Option (List Char × Entity))
    (c : Cursor), rowsOk c → pdOk pd →
    (∀ e c2, nextAux fuel pd c = (some e, c2) →
      c2.seen = entPath e :: c.seen ∧ entPath e ∉ c.seen ∧ rowsOk c2 ∧
        c2.nextRes = c.nextRes) ∧
    (∀ c2, nextAux fuel pd c = (none, c2) → c2.seen = c.seen ∧ rowsOk c2 ∧
      c2.nextRes = c.nextRes) := by
  intro fuel
  induction fuel with
  | zero =>
    intro pd c hro _
    constructor
    · intro e c2 h
      simp [nextAux] at h
    · intro c2 h
      simp only [nextAux, Prod.mk.injEq] at h
      rw [← h.2]
      exact ⟨rfl, hro, rfl⟩
  | succ fuel ih =>
    intro pd c hro hpd
    by_cases hl : c.live = false
    · constructor
      · intro e c2 h
        simp [nextAux, hl] at h
      · intro c2 h
        simp only [nextAux, hl, if_pos, Prod.mk.injEq] at h
        rw [← h.2]
        exact ⟨rfl, hro, rfl⟩
    · obtain ⟨hg1, hg2, hg3, hg4⟩ := getResult_spec c
      have hrec := ih (getResult c).1 (getResult c).2 (hg3 hro) (hg4 hro)
      cases pd with
      | some pe =>
        obtain ⟨p, e⟩ := pe
        by_cases hcond : p ≠ [] ∧ p ∉ c.seen
        · have hred : nextAux (fuel + 1) (some (p, e)) c =
              (some e, { c with seen := p :: c.seen }) := by
            simp [nextAux, hl, hcond]
          constructor
          · intro e2 c2 h
            rw [hred] at h
            injection h with h1 h2
            injection h1 with h1
            have hpe : p = entPath e := hpd p e rfl
            rw [← h2, ← h1, ← hpe]
            exact ⟨rfl, hcond.2, hro, rfl⟩
          · intro c2 h
            rw [hred] at h
            cases h
        · have hred : nextAux (fuel + 1) (some (p, e)) c =
              nextAux fuel (getResult c).1 (getResult c).2 := by
            simp [nextAux, hl, hcond]
          constructor
          · intro e2 c2 h
            rw [hred] at h
            obtain ⟨hs, hns, hr2, hn2⟩ := hrec.1 e2 c2 h
            rw [hg1] at hs hns
            rw [hg2] at hn2
            exact ⟨hs, hns, hr2, hn2⟩
          · intro c2 h
            rw [hred] at h
            obtain ⟨hs, hr2, hn2⟩ := hrec.2 c2 h
            rw [hg1] at hs
            rw [hg2] at hn2
            exact ⟨hs, hr2, hn2⟩
      | none =>
        have hred : nextAux (fuel + 1) none c =
            nextAux fuel (getResult c).1 (getResult c).2 := by
          simp [nextAux, hl]
        constructor
        · intro e2 c2 h
          rw [hred] at h
          obtain ⟨hs, hns, hr2, hn2⟩ := hrec.1 e2 c2 h
          rw [hg1] at hs hns
          rw [hg2] at hn2
          exact ⟨hs, hns, hr2, hn2⟩
        · intro c2 h
          rw [hred] at h
          obtain ⟨hs, hr2, hn2⟩ := hrec.2 c2 h
          rw [hg1] at hs
          rw [hg2] at hn2
          exact ⟨hs, hr2, hn2⟩

theorem cursorNext_some {c : Cursor} (h : cursorOk c) {e : Entity}
    {c2 : Cursor} (he : cursorNext c = (some e, c2)) :
    c2.seen = entPath e :: c.seen ∧ entPath e ∉ c.seen ∧ cursorOk c2 := by
  have hs := nextAux_spec (c.rows.length + 2) c.nextRes
    { c with nextRes := none } h.1 h.2
  obtain ⟨h1, h2, h3, h4⟩ := hs.1 e c2 he
  exact ⟨h1, h2, h3, fun p x hpx => by rw [h4] at hpx; cases hpx⟩

theorem cursorNext_none {c : Cursor} (h : cursorOk c) {c2 : Cursor}
    (he : cursorNext c = (none, c2)) :
    c2.seen = c.seen ∧ cursorOk c2 := by
  have hs := nextAux_spec (c.rows.length + 2) c.nextRes
    { c with nextRes := none } h.1 h.2
  obtain ⟨h1, h2, h3⟩ := hs.2 c2 he
  exact ⟨h1, h2, fun p x hpx => by rw [h3] at hpx; cases hpx⟩

theorem cursorSkip_spec : ∀ (n : Nat) (c : Cursor), cursorOk c →
    cursorOk (cursorSkip n c) ∧ ∃ pre, (cursorSkip n c).seen = pre ++ c.seen := by
  intro n
  induction n with
  | zero => exact fun c h => ⟨h, [], rfl⟩
  | succ n ih =>
    intro c h
    rcases hn : cursorNext c with ⟨res, c2⟩
    have hstep : cursorSkip (n + 1) c = cursorSkip n c2 := by
      show cursorSkip n (cursorNext c).2 = cursorSkip n c2
      rw [hn]
    have hc2 : cursorOk c2 ∧ ∃ pr0, c2.seen = pr0 ++ c.seen := by
      cases res with
      | none =>
        obtain ⟨hs, hok⟩ := cursorNext_none h hn
        exact ⟨hok, [], by rw [hs]; rfl⟩
      | some e =>
        obtain ⟨hs, _, hok⟩ := cursorNext_some h hn
        exact ⟨hok, [entPath e], by rw [hs]; rfl⟩
    obtain ⟨hok2, pr0, hseen0⟩ := hc2
    obtain ⟨hok3, pre, hseen3⟩ := ih c2 hok2
    rw [hstep]
    exact ⟨hok3, pre ++ pr0, by rw [hseen3, hseen0, List.append_assoc]⟩

theorem populateAux_acc : ∀ (n : Nat) (c : Cursor) (acc : List Entity),
    populateAux n c acc =
      (acc ++ (populateAux n c []).1, (populateAux n c []).2) := by
  intro n
  induction n with
  | zero =>
    intro c acc
    simp [populateAux]
  | succ n ih =>
    intro c acc
    by_cases hb : limitReached c = true
    · simp [populateAux, hb]
    · rcases hn : cursorNext c with ⟨res, c2⟩
      cases res with
      | none =>
        have h1 : populateAux (n + 1) c acc = (acc, c2) := by
          simp [populateAux, hb, hn]
        have h2 : populateAux (n + 1) c [] = ([], c2) := by
          simp [populateAux, hb, hn]
        rw [h1, h2]
        simp
      | some e =>
        have h1 : populateAux (n + 1) c acc = populateAux n c2 (acc ++ [e]) := by
          simp [populateAux, hb, hn]
        have h2 : populateAux (n + 1) c [] = populateAux n c2 [e] := by
          simp [populateAux, hb, hn]
        rw [h1, h2, ih c2 (acc ++ [e]), ih c2 [e]]
        simp

theorem populateAux_spec : ∀ (n : Nat) (c : Cursor), cursorOk c →
    ((populateAux n c []).1.map entPath).Nodup ∧
    (∀ p ∈ (populateAux n c []).1.map entPath,
      p ∉ c.seen ∧ p ∈ (populateAux n c []).2.seen) ∧
    (∃ pre, (populateAux n c []).2.seen = pre ++ c.seen) ∧
    cursorOk (populateAux n c []).2 := by
  intro n
  induction n with
  | zero =>
    intro c hok
    exact ⟨List.nodup_nil, by simp [populateAux], ⟨[], rfl⟩, hok⟩
  | succ n ih =>
    intro c hok
    by_cases hb : limitReached c = true
    · have h1 : populateAux (n + 1) c [] = ([], c) := by
        simp [populateAux, hb]
      rw [h1]
      exact ⟨List.nodup_nil, by simp, ⟨[], rfl⟩, hok⟩
    · rcases hn : cursorNext c with ⟨res, c2⟩
      cases res with
      | none =>
        have h1 : populateAux (n + 1) c [] = ([], c2) := by
          simp [populateAux, hb, hn]
        obtain ⟨hs, hok2⟩ := cursorNext_none hok hn
        rw [h1]
        exact ⟨List.nodup_nil, by simp, ⟨[], by rw [hs]; rfl⟩, hok2⟩
      | some e =>
        have h1 : populateAux (n + 1) c [] = populateAux n c2 [e] := by
          simp [populateAux, hb, hn]
        obtain ⟨hs, hfresh, hok2⟩ := cursorNext_some hok hn
        obtain ⟨hnd, hmem, ⟨pre, hpre⟩, hok3⟩ := ih c2 hok2
        rw [h1, populateAux_acc n c2 [e]]
        have hmap : (([e] ++ (populateAux n c2 []).1).map entPath) =
            entPath e :: (populateAux n c2 []).1.map entPath := by
          simp
        constructor
        · rw [hmap]
          refine List.Nodup.cons ?_ hnd
          intro hcmem
          have := (hmem (entPath e) hcmem).1
          rw [hs] at this
          exact this (List.mem_cons_self _ _)
        constructor
        · intro p hp
          rw [hmap] at hp
          rcases List.mem_cons.mp hp with hp | hp
          · subst hp
            refine ⟨hfresh, ?_⟩
            rw [hpre, hs]
            exact List.mem_append_right pre (List.mem_cons_self _ _)
          · obtain ⟨hp1, hp2⟩ := hmem p hp
            refine ⟨fun hcs => hp1 (by rw [hs]; exact List.mem_cons_of_mem _ hcs), hp2⟩
        constructor
        · refine ⟨pre ++ [entPath e], ?_⟩
          rw [hpre, hs, List.append_assoc]
          rfl
        · exact hok3

/-- Cursor-consuming operations a caller can run over a cursor's lifetime:
`Skip` (query offsets) and `PopulateQueryResult` batches (`RunQuery` /
`Next`). -/
inductive CursorOp
  | skip (n : Nat)
  | fetch (count : Nat)
deriving DecidableEq, Repr

/-- Runs a sequence of cursor operations, collecting every entity returned
by the batch fetches. -/
def runOps (c : Cursor) : List CursorOp → List Entity × Cursor
  | [] => ([], c)
  | CursorOp.skip n :: rest => runOps (cursorSkip n c) rest
  | CursorOp.fetch n :: rest =>
    ((populateQueryResult c n).1 ++
      (runOps (populateQueryResult c n).2.1 rest).1,
      (runOps (populateQueryResult c n).2.1 rest).2)

theorem populateQueryResult_parts (c : Cursor) (n : Nat) :
    (populateQueryResult c n).1 =
      (populateAux (if 1000 < n then 1000 else n) c []).1 ∧
    (populateQueryResult c n).2.1 =
      (populateAux (if 1000 < n then 1000 else n) c []).2 := by
  exact ⟨rfl, rfl⟩

theorem runOps_spec : ∀ (ops : List CursorOp) (c : Cursor), cursorOk c →
    ((runOps c ops).1.map entPath).Nodup ∧
    (∀ p ∈ (runOps c ops).1.map entPath, p ∉ c.seen ∧ p ∈ (runOps c ops).2.seen) ∧
    (∃ pre, (runOps c ops).2.seen = pre ++ c.seen) ∧
    cursorOk (runOps c ops).2 := by
  intro ops
  induction ops with
  | nil =>
    intro c hok
    exact ⟨List.nodup_nil, by simp [runOps], ⟨[], rfl⟩, hok⟩
  | cons op rest ih =>
    intro c hok
    cases op with
    | skip n =>
      obtain ⟨hok2, pre0, hseen0⟩ := cursorSkip_spec n c hok
      obtain ⟨hnd, hmem, ⟨pre, hpre⟩, hok3⟩ := ih (cursorSkip n c) hok2
      have hrw : runOps c (CursorOp.skip n :: rest) =
          runOps (cursorSkip n c) rest := rfl
      rw [hrw]
      refine ⟨hnd, ?_, ⟨pre ++ pre0, by rw [hpre, hseen0, List.append_assoc]⟩, hok3⟩
      intro p hp
      obtain ⟨hp1, hp2⟩ := hmem p hp
      refine ⟨fun hcs => hp1 ?_, hp2⟩
      rw [hseen0]
      exact List.mem_append_right pre0 hcs
    | fetch n =>
      obtain ⟨hp1, hp2⟩ := populateQueryResult_parts c n
      obtain ⟨hnd1, hmem1, ⟨pre1, hpre1⟩, hok1⟩ :=
        populateAux_spec (if 1000 < n then 1000 else n) c hok
      obtain ⟨hnd2, hmem2, ⟨pre2, hpre2⟩, hok2⟩ :=
        ih (populateQueryResult c n).2.1 (by rw [hp2]; exact hok1)
      have hrw : (runOps c (CursorOp.fetch n :: rest)).1 =
          (populateQueryResult c n).1 ++
            (runOps (populateQueryResult c n).2.1 rest).1 := rfl
      have hrw2 : (runOps c (CursorOp.fetch n :: rest)).2 =
          (runOps (populateQueryResult c n).2.1 rest).2 := rfl
      rw [hrw, hrw2]
      set X1 := (populateAux (if 1000 < n then 1000 else n) c []).1 with hX1
      set c1 := (populateAux (if 1000 < n then 1000 else n) c []).2 with hc1
      set X2 := (runOps (populateQueryResult c n).2.1 rest).1 with hX2
      set cf := (runOps (populateQueryResult c n).2.1 rest).2 with hcf
      rw [hp1, hp2] at *
      have hmapapp : ((X1 ++ X2).map entPath) = X1.map entPath ++ X2.map entPath :=
        List.map_append _ _ _
      have hfinal_ext : ∃ prf, cf.seen = prf ++ c.seen :=
        ⟨pre2 ++ pre1, by rw [hpre2, hpre1, List.append_assoc]⟩
      constructor
      · rw [hmapapp]
        rw [List.nodup_append]
        refine ⟨hnd1, hnd2, ?_⟩
        intro p hpin1 hpin2
        have h1 := (hmem1 p hpin1).2
        have h2 := (hmem2 p hpin2).1
        exact h2 h1
      constructor
      · intro p hp
        rw [hmapapp] at hp
        rcases List.mem_append.mp hp with hp | hp
        · obtain ⟨ha, hb⟩ := hmem1 p hp
          refine ⟨ha, ?_⟩
          rw [hpre2]
          exact List.mem_append_right pre2 hb
        · obtain ⟨ha, hb⟩ := hmem2 p hp
          refine ⟨fun hcs => ha ?_, hb⟩
          rw [hpre1]
          exact List.mem_append_right pre1 hcs
      · exact ⟨hfinal_ext, hok2⟩

/-- C5: across a cursor's whole lifetime — any interleaving of `Skip`s and
batch fetches — no entity path is returned twice, even when the backend
stream carries duplicate rows for the same primary key: `_Next` skips paths
already in `__seen` and records every returned path there. -/
theorem claim_C5 (c : Cursor) (ops : List CursorOp)
    (hc : cursorConsistentB c = true) :
    ((runOps c ops).1.map entPath).Nodup :=
  (runOps_spec ops c (cursorConsistentB_ok hc)).1

def c5Ent1 : Entity :=
  ⟨⟨['a'], [], [⟨['K'], Sum.inr ['x']⟩]⟩, [⟨['K'], Sum.inr ['x']⟩], []⟩

def c5Ent2 : Entity :=
  ⟨⟨['a'], [], [⟨['K'], Sum.inr ['y']⟩]⟩, [⟨['K'], Sum.inr ['y']⟩], []⟩

def c5Cursor : Cursor :=
  ⟨[⟨entPath c5Ent1, [], c5Ent1⟩, ⟨entPath c5Ent1, [], c5Ent1⟩,
    ⟨entPath c5Ent2, [], c5Ent2⟩], true, [], none, [], none, true, none⟩

theorem claim_C5_witness :
    cursorConsistentB c5Cursor = true ∧
    ((runOps c5Cursor [CursorOp.skip 1, CursorOp.fetch 5]).1.map entPath).Nodup :=
  ⟨by decide, claim_C5 c5Cursor [CursorOp.skip 1, CursorOp.fetch 5] (by decide)⟩

theorem populateAux_length : ∀ (n : Nat) (c : Cursor) (acc : List Entity),
    (populateAux n c acc).1.length ≤ acc.length + n := by
  intro n
  induction n with
  | zero =>
    intro c acc
    simp [populateAux]
  | succ n ih =>
    intro c acc
    by_cases hb : limitReached c = true
    · simp [populateAux, hb]
    · rcases hn : cursorNext c with ⟨res, c2⟩
      cases res with
      | none =>
        have h1 : populateAux (n + 1) c acc = (acc, c2) := by
          simp [populateAux, hb, hn]
        rw [h1]
        show acc.length ≤ acc.length + (n + 1)
        omega
      | some e =>
        have h1 : populateAux (n + 1) c acc = populateAux n c2 (acc ++ [e]) := by
          simp [populateAux, hb, hn]
        rw [h1]
        have := ih c2 (acc ++ [e])
        simp at this
        omega

theorem populateQueryResult_min (c : Cursor) (count : Nat) :
    populateQueryResult c count = populateQueryResult c (min count 1000) := by
  unfold populateQueryResult
  have h1 : (if 1000 < count then 1000 else count) = min count 1000 := by
    split_ifs with h <;> omega
  have h2 : (if 1000 < min count 1000 then 1000 else min count 1000) =
      min count 1000 := by
    split_ifs with h <;> omega
  rw [h1, h2]

theorem populateQueryResult_length (c : Cursor) (count : Nat) :
    (populateQueryResult c count).1.length ≤ 1000 := by
  have h := populateAux_length (if 1000 < count then 1000 else count) c []
  simp at h
  have h2 : (if 1000 < count then 1000 else count) ≤ 1000 := by
    split_ifs with hc <;> omega
  show (populateAux (if 1000 < count then 1000 else count) c []).1.length ≤ 1000
  omega

theorem dynamicCount_le (ri im : Bool) (s : Store) (q : Query)
    (matched : List Row) (v : Nat) (hcc : q.compiledCursor = none)
    (hv : dynamicCount ri im s q matched = some v) : v ≤ 1000 := by
  obtain ⟨qapp, qtx, qkind, qanc, qfs, qos, qlim, qoff, qcc, qecc⟩ := q
  simp only at hcc
  subst hcc
  unfold dynamicCount at hv
  simp only at hv
  set L := (match qlim with | some l => min l 1000 | none => 1000) with hL
  have hL1000 : L ≤ 1000 := by
    rw [hL]
    cases qlim with
    | none => exact le_refl _
    | some l => simp only; omega
  cases hplan : planQuery ri im s
      ⟨qapp, qtx, qkind, qanc, qfs, qos, some L, qoff, none, qecc⟩ with
  | error e =>
    rw [hplan] at hv
    simp at hv
  | ok st =>
    rw [hplan] at hv
    have hv2 : cursorCount (applySqlAndResume
        ⟨qapp, qtx, qkind, qanc, qfs, qos, some L, qoff, none, qecc⟩
        matched none) = some v := hv
    cases qoff with
    | some off =>
      have h3 : cursorCount (applySqlAndResume
          ⟨qapp, qtx, qkind, qanc, qfs, qos, some L, some off, none, qecc⟩
          matched none) =
          some (min ((matched.drop off).take L).length (L + 0)) := rfl
      rw [h3] at hv2
      injection hv2 with hv3
      omega
    | none =>
      have h3 : cursorCount (applySqlAndResume
          ⟨qapp, qtx, qkind, qanc, qfs, qos, some L, none, none, qecc⟩
          matched none) =
          some (min (matched.take L).length (L + 0)) := rfl
      rw [h3] at hv2
      injection hv2 with hv3
      omega

/-- C10 (amended): `PopulateQueryResult` silently caps every batch at 1000
entities, and `_Dynamic_Count` clamps the query's limit to at most 1000, so
for a query without a compiled cursor Count never exceeds 1000; a
compiled-cursor resume, however, raises the clamped limit by the marker's
row offset, so such a Count can exceed 1000. -/
theorem claim_C10 (c : Cursor) (count : Nat) (ri im : Bool) (s : Store)
    (q : Query) (matched : List Row) (v : Nat)
    (hcc : q.compiledCursor = none)
    (hv : dynamicCount ri im s q matched = some v) :
    (populateQueryResult c count).1.length ≤ 1000 ∧
    populateQueryResult c count = populateQueryResult c (min count 1000) ∧
    v ≤ 1000 :=
  ⟨populateQueryResult_length c count, populateQueryResult_min c count,
    dynamicCount_le ri im s q matched v hcc hv⟩

def c10Ent : Entity := ⟨⟨[], [], [⟨['K'], Sum.inr ['x']⟩]⟩, [], []⟩

def c10Row : Row := ⟨['p'], ['b'], c10Ent⟩

def c10Store : Store := ⟨[], false, [], [], [], [], []⟩

def c10Query : Query :=
  ⟨[], false, none, none, [], [], none, none, some ['a', '!', '0', '2'], none⟩

set_option maxRecDepth 100000 in
/-- C10 counterexample to the claim as stated: a `Count` on a query that
resumes from a compiled cursor with row offset 2 returns 1001 — the clamped
limit 1000 is raised by the marker offset (`set_limit(limit + new_offset)`),
the SQL `LIMIT 2, 1002` leaves 1002 rows, and the resume loop consumes only
one of them. -/
theorem claim_C10_counterexample :
    c10Query.compiledCursor.isSome = true ∧
    dynamicCount false false c10Store c10Query (List.replicate 1004 c10Row) =
      some 1001 ∧ 1000 < 1001 := by
  refine ⟨rfl, by decide, by decide⟩

def c10QueryPlain : Query :=
  ⟨[], false, none, none, [], [], none, none, none, none⟩

def c10Cursor : Cursor := ⟨[c10Row], true, [], none, [], none, true, none⟩

theorem claim_C10_witness :
    c10QueryPlain.compiledCursor = none ∧
    dynamicCount false false c10Store c10QueryPlain [c10Row] = some 1 ∧
    ((populateQueryResult c10Cursor 2500).1.length ≤ 1000 ∧
      populateQueryResult c10Cursor 2500 =
        populateQueryResult c10Cursor (min 2500 1000) ∧
      1 ≤ 1000) :=
  ⟨rfl, by decide,
    claim_C10 c10Cursor 2500 false false c10Store c10QueryPlain [c10Row] 1 rfl
      (by decide)⟩

end MySQLStub
